import Mathlib

/-!
Verification of the discrete-event tandem-queue simulator of `sim.ipynb`
(`CodeCraftedCrew/sim-proj-1`).

The Python code is shallowly embedded as follows.

* Times are exact rationals (Python floats abstracted to `ℚ`).
* `random.expovariate`, `random.uniform(0,1)` and
  `random.choice([j for j in range(i)])` are modelled by an `Oracle`, one
  stream of draw results per call site.  The streams are a priori
  unconstrained; theorems that need the actual ranges of the library
  generators (positive arrival gaps, `choice k i < i`, positive uniforms)
  take them as explicit hypotheses, and concrete runs use in-range values.
* `queue.PriorityQueue` over tuples `(t, (EventType, client, station))` is
  modelled by a list together with `popMin`, which removes the earliest
  occurrence of the least element in the lexicographic tuple order — exactly
  the observable behaviour of the Python heap, whose order on distinct
  tuples is total (elements with fully equal tuples are indistinguishable).
* The per-station Python dicts `q[i]`, `a[i]`, `d[i]` (client ↦ timestamp
  list, absent key ≡ empty list via `.get(c, list())`) and the list of
  station FIFOs are modelled by total functions returning `[]` by default.
* The unbounded `while` loops are run on explicit fuel; a theorem about a
  completed run takes the observable completion fact (empty event queue) as
  a hypothesis, never the fuel bound itself.
-/

set_option maxHeartbeats 1000000

/-- Event kinds (`class EventType(Enum)` in sim.ipynb).  `auto()` assigns
the values 1, 2, 3 in declaration order and `__lt__` compares these values. -/
inductive EventType where
  | ASIGNED
  | ARRIVAL
  | FINISH
deriving DecidableEq

/-- The numeric value `auto()` assigns to each member. -/
def EventType.value : EventType → ℕ
  | .ASIGNED => 1
  | .ARRIVAL => 2
  | .FINISH => 3

/-- One pending event, as pushed on the priority queue:
the Python tuple `(t, (EventType, client, station))`. -/
structure Event where
  time : ℚ
  etype : EventType
  client : ℕ
  station : ℕ
deriving DecidableEq

/-- The comparison key of the priority queue.  Python compares the tuples
`(t, (e, c, i))` lexicographically; `EventType.__lt__` compares `value`. -/
def Event.key (ev : Event) : ℚ ×ₗ (ℕ ×ₗ (ℕ ×ₗ ℕ)) :=
  toLex (ev.time, toLex (ev.etype.value, toLex (ev.client, ev.station)))

/-- `events.get()` of the Python `PriorityQueue`: return the least pending
event (earliest insertion among equal keys) together with the remaining
events. -/
def popMin : List Event → Option (Event × List Event)
  | [] => none
  | e :: es =>
    match popMin es with
    | none => some (e, es)
    | some (m, rest) =>
      if Event.key e ≤ Event.key m then some (e, es) else some (m, e :: rest)

theorem popMin_eq_none {l : List Event} : popMin l = none ↔ l = [] := by
  cases l with
  | nil => simp [popMin]
  | cons e es =>
    simp only [popMin]
    cases h : popMin es with
    | none => simp
    | some p => cases p with
      | mk m rest => by_cases hle : Event.key e ≤ Event.key m <;> simp [hle]

theorem popMin_split {l : List Event} {ev : Event} {rest : List Event}
    (h : popMin l = some (ev, rest)) :
    ∃ l1 l2, l = l1 ++ ev :: l2 ∧ rest = l1 ++ l2 := by
  induction l generalizing ev rest with
  | nil => simp [popMin] at h
  | cons e es ih =>
    simp only [popMin] at h
    cases hes : popMin es with
    | none =>
      have hnil : es = [] := popMin_eq_none.mp hes
      subst hnil
      rw [hes] at h
      simp only [Option.some.injEq, Prod.mk.injEq] at h
      exact ⟨[], [], by simp [h.1, ← h.2]⟩
    | some p =>
      obtain ⟨m, mrest⟩ := p
      rw [hes] at h
      by_cases hle : Event.key e ≤ Event.key m
      · simp only [hle, if_true, Option.some.injEq, Prod.mk.injEq] at h
        exact ⟨[], es, by simp [h.1, ← h.2]⟩
      · simp only [hle, if_false, Option.some.injEq, Prod.mk.injEq] at h
        obtain ⟨l1, l2, hsplit, hrest⟩ := ih hes
        refine ⟨e :: l1, l2, ?_, ?_⟩
        · simp [hsplit, h.1.symm]
        · simp [← h.2, hrest]

theorem popMin_mem {l : List Event} {ev : Event} {rest : List Event}
    (h : popMin l = some (ev, rest)) : ev ∈ l := by
  obtain ⟨l1, l2, hl, _⟩ := popMin_split h
  subst hl; simp

theorem popMin_min {l : List Event} {ev : Event} {rest : List Event}
    (h : popMin l = some (ev, rest)) : ∀ x ∈ l, Event.key ev ≤ Event.key x := by
  induction l generalizing ev rest with
  | nil => simp [popMin] at h
  | cons e es ih =>
    simp only [popMin] at h
    cases hes : popMin es with
    | none =>
      have hnil : es = [] := popMin_eq_none.mp hes
      subst hnil
      rw [hes] at h
      simp only [Option.some.injEq, Prod.mk.injEq] at h
      intro x hx
      simp only [List.mem_singleton] at hx
      simp [hx, ← h.1]
    | some p =>
      obtain ⟨m, mrest⟩ := p
      rw [hes] at h
      by_cases hle : Event.key e ≤ Event.key m
      · simp only [hle, if_true, Option.some.injEq, Prod.mk.injEq] at h
        obtain ⟨rfl, rfl⟩ := h
        intro x hx
        rcases List.mem_cons.mp hx with rfl | hx
        · exact le_refl _
        · exact le_trans hle (ih hes x hx)
      · simp only [hle, if_false, Option.some.injEq, Prod.mk.injEq] at h
        obtain ⟨rfl, rfl⟩ := h
        intro x hx
        rcases List.mem_cons.mp hx with rfl | hx
        · exact le_of_not_le hle
        · exact ih hes x hx

/-- The deterministic arguments of `servers_simulation`.  `lambda_arrival_time`
and `mu_wait_time` influence the run only through the random draws, which the
`Oracle` supplies directly, so only the horizon `time`, the station count `n`,
the feedback-probability list `p` (modelled as a total function) and the drain
flag `finish` appear here. -/
structure Config where
  time : ℚ
  n : ℕ
  p : ℕ → ℚ
  finish : Bool

/-- Results of the library random draws, one stream per call site:
`gap k` is the k-th `random.expovariate(lambda_arrival_time)` result,
`svc k` the k-th `random.expovariate(mu_wait_time[i])` result,
`unif k` the k-th `random.uniform(0,1)` result, and `choice k i` the k-th
`random.choice([j for j in range(i)])` result (callers pass the `i` of the
call).  The streams are unconstrained here; theorems needing the ranges the
library guarantees state them as hypotheses. -/
structure Oracle where
  gap : ℕ → ℚ
  svc : ℕ → ℚ
  unif : ℕ → ℚ
  choice : ℕ → ℕ → ℕ

/-- The mutable state of one `servers_simulation` run: the clock `t`, the
pending events, the counters `n_a`/`n_d`, the three per-station timestamp
dictionaries (`q`, `a`, `d` : station ↦ client ↦ timestamps, missing entries
are `[]`, matching `dict.get(c, list())`), the per-station FIFOs `queue`,
and the positions reached in each oracle stream. -/
structure SimState where
  t : ℚ
  events : List Event
  n_a : ℕ
  n_d : ℕ
  q : ℕ → ℕ → List ℚ
  a : ℕ → ℕ → List ℚ
  d : ℕ → ℕ → List ℚ
  queue : ℕ → List ℕ
  kGap : ℕ
  kSvc : ℕ
  kUnif : ℕ
  kChoice : ℕ

/-- The `e == EventType.ASIGNED` branch of the dispatch loop:
`index = c if i != 0 else n_a`; record the queue-entry time under `index`;
if the FIFO was empty, put an `ARRIVAL` for `index` at the same time; append
`index` to the FIFO; if `i == 0`, bump `n_a`, draw the next inter-arrival gap
and put the next external `ASIGNED` when it lands inside the horizon. -/
def handleAsigned (cfg : Config) (o : Oracle) (st : SimState) (t : ℚ) (c i : ℕ) : SimState :=
  let index := if i ≠ 0 then c else st.n_a
  let q1 := Function.update st.q i (Function.update (st.q i) index (st.q i index ++ [t]))
  let events1 := if st.queue i = [] then st.events ++ [⟨t, .ARRIVAL, index, i⟩] else st.events
  let queue1 := Function.update st.queue i (st.queue i ++ [index])
  if i = 0 then
    let events2 :=
      if t + o.gap st.kGap < cfg.time then events1 ++ [⟨t + o.gap st.kGap, .ASIGNED, 0, 0⟩]
      else events1
    { st with t := t, events := events2, q := q1, queue := queue1,
              n_a := st.n_a + 1, kGap := st.kGap + 1 }
  else
    { st with t := t, events := events1, q := q1, queue := queue1 }

/-- The `e == EventType.ARRIVAL` branch: record the service-start time for
`(i, c)`, draw a service duration and put `FINISH(c, i)` at `t + duration`. -/
def handleArrival (o : Oracle) (st : SimState) (t : ℚ) (c i : ℕ) : SimState :=
  let a1 := Function.update st.a i (Function.update (st.a i) c (st.a i c ++ [t]))
  { st with t := t, a := a1,
            events := st.events ++ [⟨t + o.svc st.kSvc, .FINISH, c, i⟩],
            kSvc := st.kSvc + 1 }

/-- The `e == EventType.FINISH` branch: pop the FIFO head if any; if a new
head exists, put an `ARRIVAL` for it at the same time; record the departure
time for `(i, c)`; if `i == n-1` bump `n_d` and stop, otherwise route to
`i+1 if i == 0 or random.uniform(0,1) > p[i] else random.choice(range(i))`
and put `ASIGNED(c, next_server)` at the same time.  The `i == n-1` test is
taken on integers, as in Python. -/
def handleFinish (cfg : Config) (o : Oracle) (st : SimState) (t : ℚ) (c i : ℕ) : SimState :=
  let queue1 := if st.queue i = [] then st.queue i else (st.queue i).tail
  let events1 :=
    match queue1.head? with
    | some h => st.events ++ [⟨t, .ARRIVAL, h, i⟩]
    | none => st.events
  let d1 := Function.update st.d i (Function.update (st.d i) c (st.d i c ++ [t]))
  let qs1 := Function.update st.queue i queue1
  if (i : ℤ) = (cfg.n : ℤ) - 1 then
    { st with t := t, events := events1, d := d1, queue := qs1, n_d := st.n_d + 1 }
  else if i = 0 then
    { st with t := t, events := events1 ++ [⟨t, .ASIGNED, c, i + 1⟩], d := d1, queue := qs1 }
  else if cfg.p i < o.unif st.kUnif then
    { st with t := t, events := events1 ++ [⟨t, .ASIGNED, c, i + 1⟩], d := d1, queue := qs1,
              kUnif := st.kUnif + 1 }
  else
    { st with t := t, events := events1 ++ [⟨t, .ASIGNED, c, o.choice st.kChoice i⟩],
              d := d1, queue := qs1, kUnif := st.kUnif + 1, kChoice := st.kChoice + 1 }

/-- Dispatch one already-popped event (the body of the `while` loop). -/
def dispatchEvent (cfg : Config) (o : Oracle) (st : SimState) (t : ℚ)
    (e : EventType) (c i : ℕ) : SimState :=
  match e with
  | .ASIGNED => handleAsigned cfg o st t c i
  | .ARRIVAL => handleArrival o st t c i
  | .FINISH => handleFinish cfg o st t c i

/-- One iteration of the dispatch loop: `(t, (e, c, i)) = events.get()`
followed by the dispatch on `e`.  (The run loop only calls this under its
non-emptiness guard, so the `none` branch never fires there.) -/
def simStep (cfg : Config) (o : Oracle) (st : SimState) : SimState :=
  match popMin st.events with
  | none => st
  | some (ev, rest) =>
    dispatchEvent cfg o { st with events := rest } ev.time ev.etype ev.client ev.station

/-- The dispatch loop `while (finish or t < time) and not events.empty()`,
run on explicit fuel (the loop itself is unbounded). -/
def runLoop (cfg : Config) (o : Oracle) : ℕ → SimState → SimState
  | 0, st => st
  | fuel + 1, st =>
    if (cfg.finish || decide (st.t < cfg.time)) && !st.events.isEmpty then
      runLoop cfg o fuel (simStep cfg o st)
    else st

/-- The initialisation of `servers_simulation`: all counters and tables
empty and the first external arrival put at `0 + expovariate(λ)`. -/
def initState (o : Oracle) : SimState :=
  { t := 0, events := [⟨0 + o.gap 0, .ASIGNED, 0, 0⟩], n_a := 0, n_d := 0,
    q := fun _ _ => [], a := fun _ _ => [], d := fun _ _ => [],
    queue := fun _ => [], kGap := 1, kSvc := 0, kUnif := 0, kChoice := 0 }

/-- `servers_simulation(time, n, lambda_arrival_time, mu_wait_time, p, finish)`:
initialise, then run the dispatch loop.  The returned `SimState` carries the
whole Python return tuple `(t, n, n_a, n_d, q, a, d)`. -/
def servers_simulation (cfg : Config) (o : Oracle) (fuel : ℕ) : SimState :=
  runLoop cfg o fuel (initState o)

/-- Concrete fixed-horizon run: one station, horizon 1, drain flag false.
Arrival gaps 1/2 then 1/10 then 10, first service lasts 5. -/
def cfgA : Config := { time := 1, n := 1, p := fun _ => 0, finish := false }

/-- Draw results for the `cfgA` run. -/
def oracleA : Oracle :=
  { gap := fun k => if k = 0 then 1/2 else if k = 1 then 1/10 else 10,
    svc := fun k => if k = 0 then 5 else 1,
    unif := fun _ => 1,
    choice := fun _ _ => 0 }

/-- Concrete drained run with feedback: three stations, `p = [0, 1/2, 0]`,
drain flag true.  One external client arrives at 1/2; after finishing
station 1 the first uniform draw (1/4) makes the feedback fire and
`choice` sends it back to station 0. -/
def cfgB : Config := { time := 1, n := 3, p := fun i => if i = 1 then 1/2 else 0, finish := true }

/-- Draw results for the `cfgB` run. -/
def oracleB : Oracle :=
  { gap := fun k => if k = 0 then 1/2 else 10,
    svc := fun _ => 1,
    unif := fun k => if k = 0 then 1/4 else 1,
    choice := fun _ _ => 0 }

/-- Concrete drained feedback-free run: one station, one client. -/
def cfgC : Config := { time := 1, n := 1, p := fun _ => 0, finish := true }

/-- Draw results for the `cfgC` run. -/
def oracleC : Oracle :=
  { gap := fun k => if k = 0 then 1/2 else 10,
    svc := fun _ => 1,
    unif := fun _ => 1,
    choice := fun _ _ => 0 }

/-- The `Metrics` class of sim.ipynb. -/
structure Metrics where
  time : ℚ
  n_d : ℕ
  wait_time : List ℚ
  use_time : List ℚ
  system_time : List ℚ

/-- `np.mean`, on exact rationals.  (`np.mean([])` is NaN with a warning in
numpy; here the empty case yields the junk value `0` — no theorem below
relies on the value of a mean over an empty list.) -/
def npMean (xs : List ℚ) : ℚ := xs.sum / xs.length

/-- The population variance `np.var` / the square of `np.std`. -/
def npVariance (xs : List ℚ) : ℚ := (xs.map (fun x => (x - npMean xs) ^ 2)).sum / xs.length

/-- The body of the inner `for c in range(n_a)` loop of
`metrics_by_simulation`, acting on the accumulator
`(wait_time_per_client, use_time_per_client, system_time)`. -/
def clientStep (t : ℚ) (n n_d : ℕ) (q a d : ℕ → ℕ → List ℚ) (s : ℕ)
    (acc : List ℚ × List ℚ × List ℚ) (c : ℕ) : List ℚ × List ℚ × List ℚ :=
  let q_t := q s c
  let a_t := a s c
  let d_t := d s c
  if q_t.length = 0 then acc
  else if a_t.length = 0 then (acc.1 ++ [t - q_t.headI], acc.2.1, acc.2.2)
  else if d_t.length = 0 then
    (acc.1 ++ [((q_t.zip a_t).map (fun pr => pr.2 - pr.1)).sum / a_t.length], acc.2.1, acc.2.2)
  else
    let w_t := ((q_t.zip a_t).map (fun pr => pr.2 - pr.1)).sum / a_t.length
    let u_t := ((a_t.zip d_t).map (fun pr => pr.2 - pr.1)).sum / a_t.length
    let sys1 := if s = 0 ∧ c < n_d then acc.2.2.set c (acc.2.2.getD c 0 - q_t.headI) else acc.2.2
    let sys2 :=
      if s = n - 1 ∧ c < n_d then sys1.set c (sys1.getD c 0 + d_t.getLastD 0) else sys1
    (acc.1 ++ [w_t], acc.2.1 ++ [u_t], sys2)

/-- One pass of the outer `for s in range(n)` loop over all clients, starting
from fresh `wait_time_per_client` / `use_time_per_client` lists and the
current `system_time` array. -/
def stationPass (t : ℚ) (n n_a n_d : ℕ) (q a d : ℕ → ℕ → List ℚ) (s : ℕ)
    (sys : List ℚ) : List ℚ × List ℚ × List ℚ :=
  (List.range n_a).foldl (clientStep t n n_d q a d s) ([], [], sys)

/-- `metrics_by_simulation`: run the simulation, then reduce the trace.
`system_time` starts as `[0 for _ in range(n_a)]`; each station appends
`np.mean` of its per-client wait/use lists.  (The dead local counters
`on_queue` and `processing` of the source influence no output and are not
modelled.) -/
def metrics_by_simulation (cfg : Config) (o : Oracle) (fuel : ℕ) : Metrics :=
  let r := servers_simulation cfg o fuel
  let folded := (List.range cfg.n).foldl
    (fun (acc : List ℚ × List ℚ × List ℚ) s =>
      let pass := stationPass r.t cfg.n r.n_a r.n_d r.q r.a r.d s acc.2.2
      (acc.1 ++ [npMean pass.1], acc.2.1 ++ [npMean pass.2.1], pass.2.2))
    ([], [], List.replicate r.n_a 0)
  ⟨r.t, r.n_d, folded.1, folded.2.1, folded.2.2⟩

/-- The convergence test `np.std(xs)/len(xs) < threshold` of
`run_simulation`, encoded without square roots: since `np.std(xs) ≥ 0`,
`np.std(xs) / len(xs) < threshold` holds iff `threshold * len(xs)` is
positive and exceeds `np.std(xs)`, iff it is positive and its square
exceeds the variance. -/
def convergedB (xs : List ℚ) (threshold : ℚ) : Bool :=
  decide (0 < threshold * xs.length) && decide (npVariance xs < (threshold * xs.length) ^ 2)

/-- The `while True` replication loop of `run_simulation`.  The three
configuration constants (`min_iterations = 1000`, `max_iterations = 5000`,
`convergence_threshold = 0.001` in the source) are parameters; the
per-replication value `np.mean(metrics.system_time)` appended on iteration
`k` is abstracted as the stream `m k` (the wait/use streams never influence
the control flow).  Returns the final iteration count and the accumulated
`system_time` list; the loop is run on fuel, which none of the theorems
below use as the stopping reason. -/
def run_simulation_loop (minIt maxIt : ℕ) (threshold : ℚ) (m : ℕ → ℚ) :
    ℕ → ℕ → List ℚ → ℕ × List ℚ
  | 0, iterations, acc => (iterations, acc)
  | fuel + 1, iterations, acc =>
    let acc1 := acc ++ [m iterations]
    let its1 := iterations + 1
    if maxIt ≤ its1 then (its1, acc1)
    else if minIt ≤ its1 && convergedB acc1 threshold then (its1, acc1)
    else run_simulation_loop minIt maxIt threshold m fuel its1 acc1

/-- Boolean test for a pending service token (ARRIVAL or FINISH) of
station `i`. -/
def isAF (i : ℕ) (ev : Event) : Bool :=
  decide (ev.etype ≠ EventType.ASIGNED ∧ ev.station = i)

/-- The pending ARRIVAL/FINISH events of station `i`, in queue order. -/
def pendAF (events : List Event) (i : ℕ) : List Event := events.filter (isAF i)

/-- Boolean test for a pending FINISH of client `c` at station `i`. -/
def isFin (i c : ℕ) (ev : Event) : Bool :=
  decide (ev.etype = EventType.FINISH ∧ ev.station = i ∧ ev.client = c)

/-- Number of pending FINISH events of client `c` at station `i`. -/
def pendF (events : List Event) (i c : ℕ) : ℕ := events.countP (isFin i c)

theorem isAF_asg {i : ℕ} {t : ℚ} {c j : ℕ} : isAF i ⟨t, .ASIGNED, c, j⟩ = false := by
  simp [isAF]

theorem isAF_arr {i : ℕ} {t : ℚ} {c j : ℕ} : isAF i ⟨t, .ARRIVAL, c, j⟩ = decide (j = i) := by
  simp [isAF]

theorem isAF_fin {i : ℕ} {t : ℚ} {c j : ℕ} : isAF i ⟨t, .FINISH, c, j⟩ = decide (j = i) := by
  simp [isAF]

theorem isFin_asg {i c : ℕ} {t : ℚ} {x j : ℕ} : isFin i c ⟨t, .ASIGNED, x, j⟩ = false := by
  simp [isFin]

theorem isFin_arr {i c : ℕ} {t : ℚ} {x j : ℕ} : isFin i c ⟨t, .ARRIVAL, x, j⟩ = false := by
  simp [isFin]

theorem isFin_fin {i c : ℕ} {t : ℚ} {x j : ℕ} :
    isFin i c ⟨t, .FINISH, x, j⟩ = decide (j = i ∧ x = c) := by
  simp [isFin, and_comm]

theorem pendAF_append {xs ys : List Event} {i : ℕ} :
    pendAF (xs ++ ys) i = pendAF xs i ++ pendAF ys i := List.filter_append ..

theorem pendF_append {xs ys : List Event} {i c : ℕ} :
    pendF (xs ++ ys) i c = pendF xs i c + pendF ys i c := List.countP_append ..

theorem pendAF_singleton {ev : Event} {i : ℕ} :
    pendAF [ev] i = if isAF i ev then [ev] else [] := by
  simp [pendAF, List.filter_singleton]

theorem pendF_singleton {ev : Event} {i c : ℕ} :
    pendF [ev] i c = if isFin i c ev then 1 else 0 := by
  simp [pendF, List.countP_cons]

/-- Every pending FINISH of client `c` at station `i` is a service token of
station `i`, so an empty token list forces a zero FINISH count. -/
theorem pendF_eq_zero_of_pendAF_nil {E : List Event} {i c : ℕ}
    (h : pendAF E i = []) : pendF E i c = 0 := by
  rw [pendF, List.countP_eq_zero]
  intro ev hev
  intro hfin
  have haf : isAF i ev = true := by
    rw [isFin, decide_eq_true_eq] at hfin
    rw [isAF, decide_eq_true_eq]
    exact ⟨by rw [hfin.1]; simp, hfin.2.1⟩
  have : ev ∈ pendAF E i := List.mem_filter.mpr ⟨hev, haf⟩
  simp [h] at this

/-- Head-token invariant of one station: an empty FIFO has no pending
service token, a non-empty FIFO has exactly one, and it belongs to the
head (the client in service). -/
def HeadAtC (E : List Event) (qu : ℕ → List ℕ) (i : ℕ) : Prop :=
  (qu i = [] → pendAF E i = []) ∧
  ∀ h tl, qu i = h :: tl → ∃ ev, pendAF E i = [ev] ∧ ev.client = h

/-- Bookkeeping invariant: every queue-entry record either departed or is
still in the FIFO, and every service-start record either departed or has
its FINISH pending. -/
def CountC (E : List Event) (q a d : ℕ → ℕ → List ℚ) (qu : ℕ → List ℕ) : Prop :=
  ∀ i c, (q i c).length = (d i c).length + (qu i).count c ∧
    (a i c).length = (d i c).length + pendF E i c

/-- The joint inductive invariant on the components of a simulation state. -/
def InvC (E : List Event) (q a d : ℕ → ℕ → List ℚ) (qu : ℕ → List ℕ) : Prop :=
  (∀ i, HeadAtC E qu i) ∧ CountC E q a d qu

/-- The joint inductive invariant of the dispatch loop. -/
def SimInv (st : SimState) : Prop := InvC st.events st.q st.a st.d st.queue

/-- Appending an ASIGNED event touches no service token and no FINISH
count. -/
theorem invC_concat_asg {E : List Event} {q a d : ℕ → ℕ → List ℚ} {qu : ℕ → List ℕ}
    {t : ℚ} {c j : ℕ} (h : InvC E q a d qu) :
    InvC (E ++ [⟨t, .ASIGNED, c, j⟩]) q a d qu := by
  obtain ⟨hH, hC⟩ := h
  constructor
  · intro i
    obtain ⟨h1, h2⟩ := hH i
    constructor
    · intro hq
      simp [pendAF_append, pendAF_singleton, isAF_asg, h1 hq]
    · intro hd tl hq
      obtain ⟨ev, hev, hcl⟩ := h2 hd tl hq
      exact ⟨ev, by simp [pendAF_append, pendAF_singleton, isAF_asg, hev], hcl⟩
  · intro i c0
    obtain ⟨h1, h2⟩ := hC i c0
    exact ⟨h1, by simp [pendF_append, pendF_singleton, isFin_asg, h2]⟩

theorem pendAF_concat_arr_self {E : List Event} {t : ℚ} {x i : ℕ} :
    pendAF (E ++ [⟨t, .ARRIVAL, x, i⟩]) i = pendAF E i ++ [⟨t, .ARRIVAL, x, i⟩] := by
  simp [pendAF_append, pendAF_singleton, isAF_arr]

theorem pendAF_concat_arr_ne {E : List Event} {t : ℚ} {x i j : ℕ} (hne : i ≠ j) :
    pendAF (E ++ [⟨t, .ARRIVAL, x, i⟩]) j = pendAF E j := by
  simp [pendAF_append, pendAF_singleton, isAF_arr, hne]

theorem pendAF_concat_fin_self {E : List Event} {t : ℚ} {x i : ℕ} :
    pendAF (E ++ [⟨t, .FINISH, x, i⟩]) i = pendAF E i ++ [⟨t, .FINISH, x, i⟩] := by
  simp [pendAF_append, pendAF_singleton, isAF_fin]

theorem pendAF_concat_fin_ne {E : List Event} {t : ℚ} {x i j : ℕ} (hne : i ≠ j) :
    pendAF (E ++ [⟨t, .FINISH, x, i⟩]) j = pendAF E j := by
  simp [pendAF_append, pendAF_singleton, isAF_fin, hne]

theorem pendF_concat_arr {E : List Event} {t : ℚ} {x j i c : ℕ} :
    pendF (E ++ [⟨t, .ARRIVAL, x, j⟩]) i c = pendF E i c := by
  simp [pendF_append, pendF_singleton, isFin_arr]

theorem pendF_concat_fin_self {E : List Event} {t : ℚ} {i c : ℕ} :
    pendF (E ++ [⟨t, .FINISH, c, i⟩]) i c = pendF E i c + 1 := by
  simp [pendF_append, pendF_singleton, isFin_fin]

theorem pendF_concat_fin_ne {E : List Event} {t : ℚ} {x j i c : ℕ}
    (hne : ¬(j = i ∧ x = c)) :
    pendF (E ++ [⟨t, .FINISH, x, j⟩]) i c = pendF E i c := by
  simp [pendF_append, pendF_singleton, isFin_fin, hne]

/-- Preservation of the invariant by the ASIGNED transition core: record the
queue entry of client `x` at station `i`, push an ARRIVAL when the FIFO was
empty, append `x` to the FIFO. -/
theorem invC_asigned {E : List Event} {q a d : ℕ → ℕ → List ℚ} {qu : ℕ → List ℕ}
    {t : ℚ} {x i : ℕ} (h : InvC E q a d qu) :
    InvC (if qu i = [] then E ++ [⟨t, .ARRIVAL, x, i⟩] else E)
      (Function.update q i (Function.update (q i) x (q i x ++ [t]))) a d
      (Function.update qu i (qu i ++ [x])) := by
  obtain ⟨hH, hC⟩ := h
  have hcount : ∀ j c0,
      ((Function.update q i (Function.update (q i) x (q i x ++ [t]))) j c0).length =
        (d j c0).length + ((Function.update qu i (qu i ++ [x])) j).count c0 := by
    intro j c0
    have hc1 := (hC j c0).1
    by_cases hji : j = i
    · subst hji
      rw [Function.update_same, Function.update_same, List.count_append]
      by_cases hcx : c0 = x
      · subst hcx
        rw [Function.update_same]
        simp only [List.length_append, List.length_singleton, List.count_singleton']
        split
        · omega
        · simp_all
      · rw [Function.update_noteq hcx]
        simp only [List.count_singleton']
        rw [if_neg (fun hxc : x = c0 => hcx hxc.symm)]
        omega
    · rw [Function.update_noteq hji, Function.update_noteq hji]
      exact hc1
  by_cases hqi : qu i = []
  · rw [if_pos hqi]
    refine ⟨?_, ?_⟩
    · intro j
      by_cases hji : j = i
      · subst hji
        refine ⟨?_, ?_⟩
        · intro hq'
          rw [Function.update_same, hqi] at hq'
          simp at hq'
        · intro hd tl hq'
          rw [Function.update_same, hqi, List.nil_append] at hq'
          simp only [List.cons.injEq] at hq'
          obtain ⟨rfl, rfl⟩ := hq'
          refine ⟨⟨t, .ARRIVAL, x, j⟩, ?_, rfl⟩
          rw [pendAF_concat_arr_self, (hH j).1 hqi, List.nil_append]
      · refine ⟨?_, ?_⟩
        · intro hq'
          rw [Function.update_noteq hji] at hq'
          rw [pendAF_concat_arr_ne (fun hij => hji hij.symm)]
          exact (hH j).1 hq'
        · intro hd tl hq'
          rw [Function.update_noteq hji] at hq'
          rw [pendAF_concat_arr_ne (fun hij => hji hij.symm)]
          exact (hH j).2 hd tl hq'
    · intro j c0
      exact ⟨hcount j c0, by rw [pendF_concat_arr]; exact (hC j c0).2⟩
  · rw [if_neg hqi]
    refine ⟨?_, ?_⟩
    · intro j
      by_cases hji : j = i
      · subst hji
        obtain ⟨h0, tl0, hq0⟩ : ∃ h0 tl0, qu j = h0 :: tl0 := by
          cases hq0 : qu j with
          | nil => exact absurd hq0 hqi
          | cons h0 tl0 => exact ⟨h0, tl0, rfl⟩
        refine ⟨?_, ?_⟩
        · intro hq'
          rw [Function.update_same, hq0] at hq'
          simp at hq'
        · intro hd tl hq'
          rw [Function.update_same, hq0, List.cons_append] at hq'
          simp only [List.cons.injEq] at hq'
          obtain ⟨ev, hev, hcl⟩ := (hH j).2 h0 tl0 hq0
          exact ⟨ev, hev, by rw [hcl, hq'.1]⟩
      · refine ⟨?_, ?_⟩
        · intro hq'
          rw [Function.update_noteq hji] at hq'
          exact (hH j).1 hq'
        · intro hd tl hq'
          rw [Function.update_noteq hji] at hq'
          exact (hH j).2 hd tl hq'
    · intro j c0
      exact ⟨hcount j c0, (hC j c0).2⟩

/-- The invariant is preserved by the full ASIGNED dispatch branch. -/
theorem inv_handleAsigned (cfg : Config) (o : Oracle) (st : SimState) (t : ℚ) (c i : ℕ)
    (h : SimInv st) : SimInv (handleAsigned cfg o st t c i) := by
  have hcore := @invC_asigned st.events st.q st.a st.d st.queue t
    (if i ≠ 0 then c else st.n_a) i h
  unfold SimInv
  unfold handleAsigned
  by_cases hi : i = 0
  · rw [if_pos hi]
    by_cases hgap : t + o.gap st.kGap < cfg.time
    · rw [if_pos hgap]
      exact invC_concat_asg hcore
    · rw [if_neg hgap]
      exact hcore
  · rw [if_neg hi]
    exact hcore

theorem pendAF_middle {l1 l2 : List Event} {ev : Event} {i : ℕ} :
    pendAF (l1 ++ ev :: l2) i = pendAF l1 i ++ pendAF [ev] i ++ pendAF l2 i := by
  rw [show l1 ++ ev :: l2 = l1 ++ [ev] ++ l2 by simp, pendAF_append, pendAF_append]

theorem pendF_middle {l1 l2 : List Event} {ev : Event} {i c : ℕ} :
    pendF (l1 ++ ev :: l2) i c = pendF l1 i c + pendF [ev] i c + pendF l2 i c := by
  rw [show l1 ++ ev :: l2 = l1 ++ [ev] ++ l2 by simp, pendF_append, pendF_append]

theorem middle_singleton {α : Type} {xs ys : List α} {e e0 : α}
    (h : xs ++ e :: ys = [e0]) : xs = [] ∧ ys = [] ∧ e = e0 := by
  cases xs with
  | nil =>
    simp only [List.nil_append, List.cons.injEq] at h
    exact ⟨rfl, h.2, h.1⟩
  | cons x0 tail =>
    simp only [List.cons_append, List.cons.injEq] at h
    exact absurd h.2 (by simp)

/-- Removing one ASIGNED event from anywhere in the schedule leaves the
invariant intact. -/
theorem invC_remove_asg {l1 l2 : List Event} {q a d : ℕ → ℕ → List ℚ} {qu : ℕ → List ℕ}
    {t : ℚ} {c j : ℕ} (h : InvC (l1 ++ ⟨t, .ASIGNED, c, j⟩ :: l2) q a d qu) :
    InvC (l1 ++ l2) q a d qu := by
  obtain ⟨hH, hC⟩ := h
  have hAF : ∀ i, pendAF (l1 ++ l2) i = pendAF (l1 ++ ⟨t, .ASIGNED, c, j⟩ :: l2) i := by
    intro i
    rw [pendAF_middle, pendAF_append, pendAF_singleton, isAF_asg]
    simp
  have hPF : ∀ i c0, pendF (l1 ++ l2) i c0 = pendF (l1 ++ ⟨t, .ASIGNED, c, j⟩ :: l2) i c0 := by
    intro i c0
    rw [pendF_middle, pendF_append, pendF_singleton, isFin_asg]
    simp
  refine ⟨?_, ?_⟩
  · intro i
    refine ⟨?_, ?_⟩
    · intro hq
      rw [hAF i]
      exact (hH i).1 hq
    · intro hd tl hq
      rw [hAF i]
      exact (hH i).2 hd tl hq
  · intro i c0
    rw [hPF i c0]
    exact hC i c0

/-- Popping a service token (ARRIVAL or FINISH) of station `i`: by the head
invariant it is the unique token of a non-empty FIFO and belongs to the
head, and no token of station `i` remains. -/
theorem pop_token_analysis {l1 l2 : List Event} {ev : Event} {qu : ℕ → List ℕ}
    (hH : ∀ i, HeadAtC (l1 ++ ev :: l2) qu i) (haf : isAF ev.station ev = true) :
    ∃ tl, qu ev.station = ev.client :: tl ∧
      pendAF l1 ev.station = [] ∧ pendAF l2 ev.station = [] := by
  have hmid : pendAF (l1 ++ ev :: l2) ev.station =
      pendAF l1 ev.station ++ ev :: pendAF l2 ev.station := by
    rw [pendAF_middle, pendAF_singleton, if_pos haf]
    simp
  cases hq : qu ev.station with
  | nil =>
    have := (hH ev.station).1 hq
    rw [hmid] at this
    simp at this
  | cons h0 tl0 =>
    obtain ⟨ev0, hev0, hcl⟩ := (hH ev.station).2 h0 tl0 hq
    rw [hmid] at hev0
    obtain ⟨h1, h2, h3⟩ := middle_singleton hev0
    refine ⟨tl0, ?_, h1, h2⟩
    exact show h0 :: tl0 = ev.client :: tl0 by rw [h3, hcl]

/-- Preservation of the invariant by the ARRIVAL transition core, applied to
the state from which the dispatched ARRIVAL token has already been removed:
record the service start of the FIFO head `c` at station `i` and push its
FINISH. -/
theorem invC_arrival {E : List Event} {q a d : ℕ → ℕ → List ℚ} {qu : ℕ → List ℕ}
    {t dur : ℚ} {c i : ℕ} {tl : List ℕ}
    (hC : CountC E q a d qu) (hHd : ∀ j, j ≠ i → HeadAtC E qu j)
    (hAF : pendAF E i = []) (hq : qu i = c :: tl) :
    InvC (E ++ [⟨t + dur, .FINISH, c, i⟩]) q
      (Function.update a i (Function.update (a i) c (a i c ++ [t]))) d qu := by
  refine ⟨?_, ?_⟩
  · intro j
    by_cases hji : j = i
    · subst hji
      refine ⟨?_, ?_⟩
      · intro hq'
        rw [hq'] at hq
        simp at hq
      · intro hd tl1 hq'
        rw [hq] at hq'
        simp only [List.cons.injEq] at hq'
        refine ⟨⟨t + dur, .FINISH, c, j⟩, ?_, by simp [hq'.1]⟩
        rw [pendAF_concat_fin_self, hAF, List.nil_append]
    · refine ⟨?_, ?_⟩
      · intro hq'
        rw [pendAF_concat_fin_ne (fun hij => hji hij.symm)]
        exact (hHd j hji).1 hq'
      · intro hd tl1 hq'
        rw [pendAF_concat_fin_ne (fun hij => hji hij.symm)]
        exact (hHd j hji).2 hd tl1 hq'
  · intro j c0
    refine ⟨(hC j c0).1, ?_⟩
    by_cases hji : j = i
    · subst hji
      by_cases hcc : c0 = c
      · subst hcc
        rw [Function.update_same, Function.update_same, pendF_concat_fin_self]
        simp only [List.length_append, List.length_singleton]
        have := (hC j c0).2
        omega
      · rw [Function.update_same, Function.update_noteq hcc,
          pendF_concat_fin_ne (fun hx => hcc hx.2.symm)]
        exact (hC j c0).2
    · rw [Function.update_noteq hji,
        pendF_concat_fin_ne (fun hx => hji hx.1.symm)]
      exact (hC j c0).2

/-- Preservation of the invariant by the FINISH transition core, applied to
the state from which the dispatched FINISH token has already been removed:
pop the FIFO head `c` of station `i`, push an ARRIVAL for the new head if
any, and record the departure.  Routing pushes (ASIGNED events) are handled
separately by `invC_concat_asg`. -/
theorem invC_finish {E : List Event} {q a d : ℕ → ℕ → List ℚ} {qu : ℕ → List ℕ}
    {t : ℚ} {c i : ℕ} {tl : List ℕ}
    (hR1 : ∀ j c0, (q j c0).length = (d j c0).length + (qu j).count c0)
    (hR2 : ∀ j c0, ¬(j = i ∧ c0 = c) → (a j c0).length = (d j c0).length + pendF E j c0)
    (hR2c : (a i c).length = (d i c).length + 1)
    (hHd : ∀ j, j ≠ i → HeadAtC E qu j)
    (hAF : pendAF E i = [])
    (hq : qu i = c :: tl) :
    InvC (match tl.head? with
          | some h2 => E ++ [⟨t, .ARRIVAL, h2, i⟩]
          | none => E)
      q a (Function.update d i (Function.update (d i) c (d i c ++ [t])))
      (Function.update qu i tl) := by
  have hpF0 : ∀ c0, pendF E i c0 = 0 := fun c0 => pendF_eq_zero_of_pendAF_nil hAF
  refine ⟨?_, ?_⟩
  · intro j
    by_cases hji : j = i
    · subst hji
      cases htl : tl with
      | nil =>
        refine ⟨?_, ?_⟩
        · intro _
          exact hAF
        · intro hd tl1 hq'
          rw [Function.update_same] at hq'
          simp at hq'
      | cons h2 tl2 =>
        refine ⟨?_, ?_⟩
        · intro hq'
          rw [Function.update_same] at hq'
          simp at hq'
        · intro hd tl1 hq'
          rw [Function.update_same] at hq'
          simp only [List.cons.injEq] at hq'
          simp only [List.head?_cons]
          refine ⟨⟨t, .ARRIVAL, h2, j⟩, ?_, by simp [hq'.1]⟩
          rw [pendAF_concat_arr_self, hAF, List.nil_append]
    · refine ⟨?_, ?_⟩
      · intro hq'
        rw [Function.update_noteq hji] at hq'
        cases htl : tl.head? with
        | none => exact (hHd j hji).1 hq'
        | some h2 =>
          rw [pendAF_concat_arr_ne (fun hij => hji hij.symm)]
          exact (hHd j hji).1 hq'
      · intro hd tl1 hq'
        rw [Function.update_noteq hji] at hq'
        cases htl : tl.head? with
        | none => exact (hHd j hji).2 hd tl1 hq'
        | some h2 =>
          rw [pendAF_concat_arr_ne (fun hij => hji hij.symm)]
          exact (hHd j hji).2 hd tl1 hq'
  · intro j c0
    have hpfE : pendF (match tl.head? with
        | some h2 => E ++ [⟨t, .ARRIVAL, h2, i⟩]
        | none => E) j c0 = pendF E j c0 := by
      cases tl.head? with
      | none => rfl
      | some h2 => rw [pendF_concat_arr]
    refine ⟨?_, ?_⟩
    · by_cases hji : j = i
      · subst hji
        rw [Function.update_same, Function.update_same]
        by_cases hcc : c0 = c
        · subst hcc
          rw [Function.update_same]
          have := hR1 j c0
          rw [hq] at this
          simp only [List.count_cons_self, List.length_append, List.length_singleton] at *
          omega
        · rw [Function.update_noteq hcc]
          have := hR1 j c0
          rw [hq] at this
          rw [List.count_cons_of_ne (fun hx : c0 = c => hcc hx)] at this
          exact this
      · rw [Function.update_noteq hji, Function.update_noteq hji]
        exact hR1 j c0
    · rw [hpfE]
      by_cases hji : j = i
      · subst hji
        by_cases hcc : c0 = c
        · subst hcc
          rw [Function.update_same, Function.update_same, hpF0 c0]
          simp only [List.length_append, List.length_singleton]
          omega
        · rw [Function.update_same, Function.update_noteq hcc]
          exact hR2 j c0 (fun hx => hcc hx.2)
      · rw [Function.update_noteq hji]
        exact hR2 j c0 (fun hx => hji hx.1)

/-- One dispatch-loop iteration preserves the joint invariant. -/
theorem inv_simStep (cfg : Config) (o : Oracle) (st : SimState) (h : SimInv st) :
    SimInv (simStep cfg o st) := by
  unfold simStep
  cases hpop : popMin st.events with
  | none => exact h
  | some p =>
    obtain ⟨ev, rest⟩ := p
    obtain ⟨l1, l2, hl, hrest⟩ := popMin_split hpop
    obtain ⟨t0, e0, c0, i0⟩ := ev
    have hfull : InvC (l1 ++ (⟨t0, e0, c0, i0⟩ : Event) :: l2) st.q st.a st.d st.queue := by
      rw [← hl]; exact h
    cases e0 with
    | ASIGNED =>
      apply inv_handleAsigned
      show SimInv { st with events := rest }
      unfold SimInv
      simp only []
      rw [hrest]
      exact invC_remove_asg hfull
    | ARRIVAL =>
      obtain ⟨hH, hC⟩ := hfull
      obtain ⟨tl, hq, hp1, hp2⟩ := pop_token_analysis hH (by simp [isAF])
      simp only [] at hq
      have hAFr : pendAF (l1 ++ l2) i0 = [] := by
        rw [pendAF_append, hp1, hp2, List.nil_append]
      have hCr : CountC (l1 ++ l2) st.q st.a st.d st.queue := by
        intro j c1
        refine ⟨(hC j c1).1, ?_⟩
        have : pendF (l1 ++ l2) j c1 = pendF (l1 ++ (⟨t0, .ARRIVAL, c0, i0⟩ : Event) :: l2) j c1 := by
          rw [pendF_middle, pendF_append, pendF_singleton, isFin_arr]
          simp
        rw [this]
        exact (hC j c1).2
      have hHdr : ∀ j, j ≠ i0 → HeadAtC (l1 ++ l2) st.queue j := by
        intro j hji
        have hpe : pendAF (l1 ++ l2) j = pendAF (l1 ++ (⟨t0, .ARRIVAL, c0, i0⟩ : Event) :: l2) j := by
          rw [pendAF_middle, pendAF_append, pendAF_singleton, isAF_arr,
            decide_eq_false (fun hij : i0 = j => hji hij.symm)]
          simp
        refine ⟨?_, ?_⟩
        · intro hq'
          rw [hpe]
          exact (hH j).1 hq'
        · intro hd tl1 hq'
          rw [hpe]
          exact (hH j).2 hd tl1 hq'
      show SimInv (handleArrival o { st with events := rest } t0 c0 i0)
      unfold SimInv handleArrival
      simp only []
      rw [hrest]
      exact invC_arrival hCr hHdr hAFr hq
    | FINISH =>
      obtain ⟨hH, hC⟩ := hfull
      obtain ⟨tl, hq, hp1, hp2⟩ := pop_token_analysis hH (by simp [isAF])
      simp only [] at hq
      have hAFr : pendAF (l1 ++ l2) i0 = [] := by
        rw [pendAF_append, hp1, hp2, List.nil_append]
      have hR1r : ∀ j c1, (st.q j c1).length = (st.d j c1).length + (st.queue j).count c1 :=
        fun j c1 => (hC j c1).1
      have hR2r : ∀ j c1, ¬(j = i0 ∧ c1 = c0) →
          (st.a j c1).length = (st.d j c1).length + pendF (l1 ++ l2) j c1 := by
        intro j c1 hne
        have : pendF (l1 ++ l2) j c1 = pendF (l1 ++ (⟨t0, .FINISH, c0, i0⟩ : Event) :: l2) j c1 := by
          rw [pendF_middle, pendF_append, pendF_singleton, isFin_fin,
            decide_eq_false (fun hx : i0 = j ∧ c0 = c1 => hne ⟨hx.1.symm, hx.2.symm⟩)]
          simp
        rw [this]
        exact (hC j c1).2
      have hR2cr : (st.a i0 c0).length = (st.d i0 c0).length + 1 := by
        have h2 := (hC i0 c0).2
        rw [pendF_middle, pendF_singleton, isFin_fin, decide_eq_true (by exact ⟨rfl, rfl⟩),
          pendF_eq_zero_of_pendAF_nil hp1, pendF_eq_zero_of_pendAF_nil hp2] at h2
        simpa using h2
      have hHdr : ∀ j, j ≠ i0 → HeadAtC (l1 ++ l2) st.queue j := by
        intro j hji
        have hpe : pendAF (l1 ++ l2) j = pendAF (l1 ++ (⟨t0, .FINISH, c0, i0⟩ : Event) :: l2) j := by
          rw [pendAF_middle, pendAF_append, pendAF_singleton, isAF_fin,
            decide_eq_false (fun hij : i0 = j => hji hij.symm)]
          simp
        refine ⟨?_, ?_⟩
        · intro hq'
          rw [hpe]
          exact (hH j).1 hq'
        · intro hd tl1 hq'
          rw [hpe]
          exact (hH j).2 hd tl1 hq'
      have hcore := @invC_finish (l1 ++ l2) st.q st.a st.d st.queue t0 c0 i0 tl
        hR1r hR2r hR2cr hHdr hAFr hq
      show SimInv (handleFinish cfg o { st with events := rest } t0 c0 i0)
      unfold SimInv handleFinish
      simp only []
      rw [hrest, hq]
      rw [if_neg (by simp : ¬(c0 :: tl = []))]
      simp only [List.tail_cons]
      by_cases hlast : (i0 : ℤ) = (cfg.n : ℤ) - 1
      · rw [if_pos hlast]
        exact hcore
      · rw [if_neg hlast]
        by_cases h0 : i0 = 0
        · rw [if_pos h0]
          exact invC_concat_asg hcore
        · rw [if_neg h0]
          by_cases hu : cfg.p i0 < o.unif st.kUnif
          · rw [if_pos hu]
            exact invC_concat_asg hcore
          · rw [if_neg hu]
            exact invC_concat_asg hcore

/-- The invariant holds initially: empty FIFOs, empty tables, and a single
pending ASIGNED event. -/
theorem inv_initState (o : Oracle) : SimInv (initState o) := by
  refine ⟨?_, ?_⟩
  · intro i
    refine ⟨?_, ?_⟩
    · intro _
      simp [initState, pendAF, isAF_asg, List.filter_singleton]
    · intro hd tl hq
      simp [initState] at hq
  · intro i c
    simp [initState, pendF, List.countP_cons, isFin_asg]

/-- The invariant is preserved by the whole dispatch loop. -/
theorem inv_runLoop (cfg : Config) (o : Oracle) (fuel : ℕ) (st : SimState)
    (h : SimInv st) : SimInv (runLoop cfg o fuel st) := by
  induction fuel generalizing st with
  | zero => exact h
  | succ fuel ih =>
    unfold runLoop
    split
    · exact ih _ (inv_simStep cfg o st h)
    · exact h

/-- The invariant holds in every state reached by `servers_simulation`. -/
theorem inv_servers_simulation (cfg : Config) (o : Oracle) (fuel : ℕ) :
    SimInv (servers_simulation cfg o fuel) :=
  inv_runLoop cfg o fuel (initState o) (inv_initState o)

/-- Under the head-token invariant, the pending FINISH count of `(i, c)` is
bounded by the number of occurrences of `c` in FIFO `i`. -/
theorem pendF_le_count {E : List Event} {qu : ℕ → List ℕ}
    (hH : ∀ i, HeadAtC E qu i) (i c : ℕ) : pendF E i c ≤ (qu i).count c := by
  rcases Nat.eq_zero_or_pos (pendF E i c) with hpf | hpos
  · simp [hpf]
  · have hex : ∃ ev ∈ E, isFin i c ev := by
      rw [pendF] at hpos
      exact List.countP_pos_iff.mp hpos
    obtain ⟨ev, hev, hfin⟩ := hex
    rw [isFin, decide_eq_true_eq] at hfin
    have hmem : ev ∈ pendAF E i := by
      refine List.mem_filter.mpr ⟨hev, ?_⟩
      rw [isAF, decide_eq_true_eq]
      exact ⟨by rw [hfin.1]; simp, hfin.2.1⟩
    cases hq : qu i with
    | nil =>
      rw [(hH i).1 hq] at hmem
      simp at hmem
    | cons h0 tl =>
      obtain ⟨ev0, hev0, hcl⟩ := (hH i).2 h0 tl hq
      rw [hev0] at hmem
      simp only [List.mem_singleton] at hmem
      have hh0 : h0 = c := by
        rw [← hcl, ← hmem]
        exact hfin.2.2
      have hle1 : pendF E i c ≤ 1 := by
        have hmono : ∀ x ∈ E, isFin i c x = true → isAF i x = true := by
          intro x _ hx
          rw [isFin, decide_eq_true_eq] at hx
          rw [isAF, decide_eq_true_eq]
          exact ⟨by rw [hx.1]; simp, hx.2.1⟩
        have := List.countP_mono_left hmono
        rw [← pendF] at this
        rw [List.countP_eq_length_filter, ← pendAF, hev0] at this
        simpa using this
      have hcnt : 1 ≤ List.count c (h0 :: tl) := by
        rw [hh0, List.count_cons_self]
        omega
      omega

/-- C6: at every point of every run (any fuel, any draws), for every
(station, client) pair the departure list is no longer than the
service-start list, which is no longer than the queue-entry list. -/
theorem trace_length_invariant (cfg : Config) (o : Oracle) (fuel : ℕ) (i c : ℕ) :
    ((servers_simulation cfg o fuel).d i c).length ≤
      ((servers_simulation cfg o fuel).a i c).length ∧
    ((servers_simulation cfg o fuel).a i c).length ≤
      ((servers_simulation cfg o fuel).q i c).length := by
  obtain ⟨hH, hC⟩ := inv_servers_simulation cfg o fuel
  have h1 := (hC i c).1
  have h2 := (hC i c).2
  have h3 := pendF_le_count hH i c
  constructor <;> omega

/-- C10: whenever the next event the dispatch loop would pop is a
`FINISH(c, i)`, station `i`'s FIFO is non-empty and its head is exactly
`c`, so the unconditional head pop removes the client whose service just
ended. -/
theorem finish_head_invariant (cfg : Config) (o : Oracle) (fuel : ℕ) (t : ℚ) (c i : ℕ)
    (rest : List Event)
    (hpop : popMin (servers_simulation cfg o fuel).events = some (⟨t, .FINISH, c, i⟩, rest)) :
    ∃ tl, (servers_simulation cfg o fuel).queue i = c :: tl := by
  obtain ⟨hH, _⟩ := inv_servers_simulation cfg o fuel
  obtain ⟨l1, l2, hl, _⟩ := popMin_split hpop
  have hHfull : ∀ j, HeadAtC (l1 ++ (⟨t, .FINISH, c, i⟩ : Event) :: l2)
      (servers_simulation cfg o fuel).queue j := by
    rw [← hl]
    exact hH
  obtain ⟨tl, hq, _, _⟩ := pop_token_analysis hHfull (by simp [isAF])
  exact ⟨tl, hq⟩

/-- Witness for `finish_head_invariant`: after two dispatches of the `cfgC`
run the next pending event is `FINISH(0, 0)` and the FIFO of station 0
indeed has client 0 at its head. -/
theorem finish_head_invariant_witness :
    ∃ tl, (servers_simulation cfgC oracleC 2).queue 0 = 0 :: tl :=
  finish_head_invariant cfgC oracleC 2 (3/2) 0 0 [] (by with_unfolding_all rfl)

/-- Boolean test for a pending ASIGNED event bound for a station other than
station 0 (such an event will enlarge a FIFO without enlarging `n_a`). -/
def isA0 (ev : Event) : Bool := decide (ev.etype = EventType.ASIGNED ∧ ev.station ≠ 0)

/-- Number of pending non-external ASIGNED events. -/
def pendA0 (E : List Event) : ℕ := E.countP isA0

theorem pendA0_append {xs ys : List Event} : pendA0 (xs ++ ys) = pendA0 xs + pendA0 ys :=
  List.countP_append ..

theorem pendA0_singleton {ev : Event} : pendA0 [ev] = if isA0 ev then 1 else 0 := by
  simp [pendA0, List.countP_cons]

theorem isA0_asg {t : ℚ} {c j : ℕ} : isA0 ⟨t, .ASIGNED, c, j⟩ = decide (j ≠ 0) := by
  simp [isA0]

theorem isA0_arr {t : ℚ} {c j : ℕ} : isA0 ⟨t, .ARRIVAL, c, j⟩ = false := by
  simp [isA0]

theorem isA0_fin {t : ℚ} {c j : ℕ} : isA0 ⟨t, .FINISH, c, j⟩ = false := by
  simp [isA0]

/-- Total FIFO occupancy of the `n` stations. -/
def queueTotal (qu : ℕ → List ℕ) (n : ℕ) : ℕ := ∑ j ∈ Finset.range n, (qu j).length

/-- The potential of a state: departures plus queued clients plus in-flight
non-external ASIGNED events.  For feedback-free runs it equals `n_a`
throughout; in general it never exceeds `n_a`. -/
def pot (st : SimState) (n : ℕ) : ℕ := st.n_d + queueTotal st.queue n + pendA0 st.events

/-- Every pending event is bound for one of the `n` stations and no FIFO
beyond them is ever populated. -/
def BoundedSt (st : SimState) (n : ℕ) : Prop :=
  (∀ ev ∈ st.events, ev.station < n) ∧ ∀ j, n ≤ j → st.queue j = []

theorem queueTotal_update {qu : ℕ → List ℕ} {n i : ℕ} {v : List ℕ} (hi : i < n) :
    queueTotal (Function.update qu i v) n + (qu i).length = queueTotal qu n + v.length := by
  unfold queueTotal
  have hmem : i ∈ Finset.range n := Finset.mem_range.mpr hi
  rw [← Finset.add_sum_erase _ _ hmem, ← Finset.add_sum_erase _ (fun j => (qu j).length) hmem]
  rw [Function.update_same]
  have : ∑ j ∈ (Finset.range n).erase i, ((Function.update qu i v) j).length =
      ∑ j ∈ (Finset.range n).erase i, (qu j).length := by
    apply Finset.sum_congr rfl
    intro j hj
    rw [Function.update_noteq (Finset.ne_of_mem_erase hj)]
  rw [this]
  omega

theorem queueTotal_ge {qu : ℕ → List ℕ} {n i : ℕ} (hi : i < n) :
    (qu i).length ≤ queueTotal qu n := by
  unfold queueTotal
  have hmem : i ∈ Finset.range n := Finset.mem_range.mpr hi
  have hnn : ∀ j ∈ Finset.range n, (0 : ℕ) ≤ (fun j => (qu j).length) j :=
    fun j _ => Nat.zero_le _
  exact Finset.single_le_sum hnn hmem

/-- Station-boundedness is preserved by one dispatch iteration (given that
backward `choice` draws stay below the finishing station, as
`random.choice(range(i))` guarantees). -/
theorem bounded_simStep (cfg : Config) (o : Oracle) (st : SimState)
    (hn : 1 ≤ cfg.n) (hch : ∀ k i, 1 ≤ i → o.choice k i < i)
    (hB : BoundedSt st cfg.n) : BoundedSt (simStep cfg o st) cfg.n := by
  unfold simStep
  cases hpop : popMin st.events with
  | none => exact hB
  | some p =>
    obtain ⟨ev, rest⟩ := p
    obtain ⟨l1, l2, hl, hrest⟩ := popMin_split hpop
    have hsta : ev.station < cfg.n := hB.1 ev (popMin_mem hpop)
    have hBrest : ∀ x ∈ rest, x.station < cfg.n := by
      intro x hx
      refine hB.1 x ?_
      rw [hl]
      rw [hrest] at hx
      rcases List.mem_append.mp hx with hx | hx
      · exact List.mem_append.mpr (Or.inl hx)
      · exact List.mem_append.mpr (Or.inr (List.mem_cons_of_mem _ hx))
    obtain ⟨t0, e0, c0, i0⟩ := ev
    simp only [] at hsta
    cases e0 with
    | ASIGNED =>
      show BoundedSt (handleAsigned cfg o { st with events := rest } t0 c0 i0) cfg.n
      unfold handleAsigned
      have hev1 : ∀ x ∈ (if st.queue i0 = [] then
          rest ++ [⟨t0, .ARRIVAL, if i0 ≠ 0 then c0 else st.n_a, i0⟩] else rest),
          x.station < cfg.n := by
        intro x hx
        split at hx
        · rcases List.mem_append.mp hx with hx | hx
          · exact hBrest x hx
          · simp only [List.mem_singleton] at hx
            subst hx
            exact hsta
        · exact hBrest x hx
      have hqu : ∀ j, cfg.n ≤ j →
          Function.update st.queue i0 (st.queue i0 ++ [if i0 ≠ 0 then c0 else st.n_a]) j = [] := by
        intro j hj
        rw [Function.update_noteq (fun hji : j = i0 => by omega)]
        exact hB.2 j hj
      by_cases hi : i0 = 0
      · rw [if_pos hi]
        by_cases hgap : t0 + o.gap st.kGap < cfg.time
        · rw [if_pos hgap]
          refine ⟨?_, hqu⟩
          intro x hx
          rcases List.mem_append.mp hx with hx | hx
          · exact hev1 x hx
          · simp only [List.mem_singleton] at hx
            subst hx
            show (0 : ℕ) < cfg.n
            omega
        · rw [if_neg hgap]
          exact ⟨hev1, hqu⟩
      · rw [if_neg hi]
        exact ⟨hev1, hqu⟩
    | ARRIVAL =>
      show BoundedSt (handleArrival o { st with events := rest } t0 c0 i0) cfg.n
      unfold handleArrival
      refine ⟨?_, hB.2⟩
      intro x hx
      rcases List.mem_append.mp hx with hx | hx
      · exact hBrest x hx
      · simp only [List.mem_singleton] at hx
        subst hx
        exact hsta
    | FINISH =>
      show BoundedSt (handleFinish cfg o { st with events := rest } t0 c0 i0) cfg.n
      unfold handleFinish
      have hev1 : ∀ x ∈ (match (if st.queue i0 = [] then st.queue i0
            else (st.queue i0).tail).head? with
          | some h => rest ++ [(⟨t0, .ARRIVAL, h, i0⟩ : Event)]
          | none => rest), x.station < cfg.n := by
        cases (if st.queue i0 = [] then st.queue i0 else (st.queue i0).tail).head? with
        | none => exact hBrest
        | some h =>
          intro x hx
          rcases List.mem_append.mp hx with hx | hx
          · exact hBrest x hx
          · simp only [List.mem_singleton] at hx
            subst hx
            exact hsta
      have hqu : ∀ j, cfg.n ≤ j →
          Function.update st.queue i0
            (if st.queue i0 = [] then st.queue i0 else (st.queue i0).tail) j = [] := by
        intro j hj
        rw [Function.update_noteq (fun hji : j = i0 => by omega)]
        exact hB.2 j hj
      by_cases hlast : (i0 : ℤ) = (cfg.n : ℤ) - 1
      · rw [if_pos hlast]
        exact ⟨hev1, hqu⟩
      · rw [if_neg hlast]
        have hnext : i0 + 1 < cfg.n := by omega
        by_cases h0 : i0 = 0
        · rw [if_pos h0]
          refine ⟨?_, hqu⟩
          intro x hx
          rcases List.mem_append.mp hx with hx | hx
          · exact hev1 x hx
          · simp only [List.mem_singleton] at hx
            subst hx
            exact hnext
        · rw [if_neg h0]
          by_cases hu : cfg.p i0 < o.unif st.kUnif
          · rw [if_pos hu]
            refine ⟨?_, hqu⟩
            intro x hx
            rcases List.mem_append.mp hx with hx | hx
            · exact hev1 x hx
            · simp only [List.mem_singleton] at hx
              subst hx
              exact hnext
          · rw [if_neg hu]
            refine ⟨?_, hqu⟩
            intro x hx
            rcases List.mem_append.mp hx with hx | hx
            · exact hev1 x hx
            · simp only [List.mem_singleton] at hx
              subst hx
              show o.choice st.kChoice i0 < cfg.n
              have := hch st.kChoice i0 (by omega)
              omega

theorem pendA0_concat_asg_pos {E : List Event} {t : ℚ} {c s : ℕ} (h : s ≠ 0) :
    pendA0 (E ++ [⟨t, .ASIGNED, c, s⟩]) = pendA0 E + 1 := by
  rw [pendA0_append, pendA0_singleton, isA0_asg]
  simp [h]

theorem pendA0_concat_asg_zero {E : List Event} {t : ℚ} {c : ℕ} :
    pendA0 (E ++ [⟨t, .ASIGNED, c, 0⟩]) = pendA0 E := by
  rw [pendA0_append, pendA0_singleton, isA0_asg]
  simp

theorem pendA0_concat_arr {E : List Event} {t : ℚ} {c s : ℕ} :
    pendA0 (E ++ [⟨t, .ARRIVAL, c, s⟩]) = pendA0 E := by
  rw [pendA0_append, pendA0_singleton, isA0_arr]
  simp

theorem pendA0_concat_fin {E : List Event} {t : ℚ} {c s : ℕ} :
    pendA0 (E ++ [⟨t, .FINISH, c, s⟩]) = pendA0 E := by
  rw [pendA0_append, pendA0_singleton, isA0_fin]
  simp

/-- One dispatch iteration changes the potential exactly as it changes
`n_a`, except that a feedback routing to station 0 (possible only when a
uniform draw fails to exceed the feedback probability) loses one unit of
potential. -/
theorem pot_simStep (cfg : Config) (o : Oracle) (st : SimState)
    (hInv : SimInv st) (hB : BoundedSt st cfg.n) :
    pot (simStep cfg o st) cfg.n + st.n_a = pot st cfg.n + (simStep cfg o st).n_a ∨
      (pot (simStep cfg o st) cfg.n + 1 + st.n_a = pot st cfg.n + (simStep cfg o st).n_a ∧
        ∃ k i, 1 ≤ i ∧ ¬ cfg.p i < o.unif k) := by
  unfold simStep
  cases hpop : popMin st.events with
  | none => exact Or.inl rfl
  | some p =>
    obtain ⟨ev, rest⟩ := p
    obtain ⟨l1, l2, hl, hrest⟩ := popMin_split hpop
    have hsta : ev.station < cfg.n := hB.1 ev (popMin_mem hpop)
    obtain ⟨t0, e0, c0, i0⟩ := ev
    simp only [] at hsta
    have hmid : ∀ e1 : Event, st.events = l1 ++ e1 :: l2 →
        pendA0 st.events = pendA0 rest + pendA0 [e1] := by
      intro e1 he1
      rw [he1, hrest, show l1 ++ e1 :: l2 = l1 ++ [e1] ++ l2 by simp,
        pendA0_append, pendA0_append, pendA0_append]
      omega
    cases e0 with
    | ASIGNED =>
      have hqt := @queueTotal_update st.queue cfg.n i0
        (st.queue i0 ++ [if i0 ≠ 0 then c0 else st.n_a]) hsta
      rw [List.length_append, List.length_singleton] at hqt
      have hpa1 : pendA0 (if st.queue i0 = [] then
          rest ++ [(⟨t0, .ARRIVAL, if i0 ≠ 0 then c0 else st.n_a, i0⟩ : Event)] else rest) =
          pendA0 rest := by
        split
        · rw [pendA0_concat_arr]
        · rfl
      show pot (handleAsigned cfg o { st with events := rest } t0 c0 i0) cfg.n + st.n_a =
          pot st cfg.n + (handleAsigned cfg o { st with events := rest } t0 c0 i0).n_a ∨ _
      unfold handleAsigned
      by_cases hi : i0 = 0
      · have hpaev : pendA0 st.events = pendA0 rest := by
          rw [hmid ⟨t0, .ASIGNED, c0, i0⟩ hl, pendA0_singleton, isA0_asg, hi]
          norm_num
        rw [if_pos hi]
        by_cases hgap : t0 + o.gap st.kGap < cfg.time
        · rw [if_pos hgap]
          refine Or.inl ?_
          simp only [pot]
          rw [pendA0_concat_asg_zero]
          omega
        · rw [if_neg hgap]
          refine Or.inl ?_
          simp only [pot]
          omega
      · have hpaev : pendA0 st.events = pendA0 rest + 1 := by
          rw [hmid ⟨t0, .ASIGNED, c0, i0⟩ hl, pendA0_singleton, isA0_asg,
            decide_eq_true (by exact hi : i0 ≠ 0)]
          simp
        rw [if_neg hi]
        refine Or.inl ?_
        simp only [pot]
        omega
    | ARRIVAL =>
      have hpaev : pendA0 st.events = pendA0 rest := by
        rw [hmid ⟨t0, .ARRIVAL, c0, i0⟩ hl, pendA0_singleton, isA0_arr]
        simp
      refine Or.inl ?_
      show pot (handleArrival o { st with events := rest } t0 c0 i0) cfg.n + st.n_a =
          pot st cfg.n + (handleArrival o { st with events := rest } t0 c0 i0).n_a
      unfold handleArrival
      simp only [pot]
      rw [pendA0_concat_fin]
      omega
    | FINISH =>
      have hpaev : pendA0 st.events = pendA0 rest := by
        rw [hmid ⟨t0, .FINISH, c0, i0⟩ hl, pendA0_singleton, isA0_fin]
        simp
      obtain ⟨hH, hC⟩ : InvC (l1 ++ (⟨t0, .FINISH, c0, i0⟩ : Event) :: l2) st.q st.a st.d
          st.queue := by
        rw [← hl]
        exact hInv
      obtain ⟨tl, hq, hp1, hp2⟩ := pop_token_analysis hH (by simp [isAF])
      simp only [] at hq
      have hqt := @queueTotal_update st.queue cfg.n i0 tl hsta
      rw [hq, List.length_cons] at hqt
      have hpa1 : pendA0 (match tl.head? with
          | some h => rest ++ [(⟨t0, .ARRIVAL, h, i0⟩ : Event)]
          | none => rest) = pendA0 rest := by
        cases tl.head? with
        | none => rfl
        | some h => rw [pendA0_concat_arr]
      show pot (handleFinish cfg o { st with events := rest } t0 c0 i0) cfg.n + st.n_a =
            pot st cfg.n + (handleFinish cfg o { st with events := rest } t0 c0 i0).n_a ∨
          (pot (handleFinish cfg o { st with events := rest } t0 c0 i0) cfg.n + 1 + st.n_a =
            pot st cfg.n + (handleFinish cfg o { st with events := rest } t0 c0 i0).n_a ∧
            ∃ k i, 1 ≤ i ∧ ¬ cfg.p i < o.unif k)
      unfold handleFinish
      rw [hq]
      rw [if_neg (by simp : ¬(c0 :: tl = []))]
      simp only [List.tail_cons]
      by_cases hlast : (i0 : ℤ) = (cfg.n : ℤ) - 1
      · rw [if_pos hlast]
        refine Or.inl ?_
        simp only [pot]
        omega
      · rw [if_neg hlast]
        by_cases h0 : i0 = 0
        · rw [if_pos h0]
          refine Or.inl ?_
          simp only [pot]
          rw [pendA0_concat_asg_pos (by omega : i0 + 1 ≠ 0)]
          omega
        · rw [if_neg h0]
          by_cases hu : cfg.p i0 < o.unif st.kUnif
          · rw [if_pos hu]
            refine Or.inl ?_
            simp only [pot]
            rw [pendA0_concat_asg_pos (by omega : i0 + 1 ≠ 0)]
            omega
          · rw [if_neg hu]
            by_cases hj : o.choice st.kChoice i0 = 0
            · refine Or.inr ⟨?_, st.kUnif, i0, by omega, hu⟩
              simp only [pot]
              rw [hj, pendA0_concat_asg_zero]
              omega
            · refine Or.inl ?_
              simp only [pot]
              rw [pendA0_concat_asg_pos hj]
              omega

/-- Loop-level potential bound: along the dispatch loop the potential never
exceeds `n_a`, and it stays exactly equal to `n_a` when no uniform draw can
make feedback fire. -/
theorem pot_runLoop (cfg : Config) (o : Oracle) (fuel : ℕ) (st : SimState)
    (hn : 1 ≤ cfg.n) (hch : ∀ k i, 1 ≤ i → o.choice k i < i)
    (hInv : SimInv st) (hB : BoundedSt st cfg.n) :
    (pot st cfg.n ≤ st.n_a →
      pot (runLoop cfg o fuel st) cfg.n ≤ (runLoop cfg o fuel st).n_a) ∧
    ((∀ k i, 1 ≤ i → cfg.p i < o.unif k) → pot st cfg.n = st.n_a →
      pot (runLoop cfg o fuel st) cfg.n = (runLoop cfg o fuel st).n_a) := by
  induction fuel generalizing st with
  | zero => exact ⟨fun h => h, fun _ h => h⟩
  | succ fuel ih =>
    unfold runLoop
    split
    · have hstep := pot_simStep cfg o st hInv hB
      have hrec := ih (simStep cfg o st) (inv_simStep cfg o st hInv)
        (bounded_simStep cfg o st hn hch hB)
      refine ⟨?_, ?_⟩
      · intro hle
        refine hrec.1 ?_
        rcases hstep with h | ⟨h, _⟩ <;> omega
      · intro hnofb heq
        refine hrec.2 hnofb ?_
        rcases hstep with h | ⟨h, ⟨k, i, hi, hnu⟩⟩
        · omega
        · exact absurd (hnofb k i hi) hnu
    · exact ⟨fun h => h, fun _ h => h⟩

theorem bounded_initState (cfg : Config) (o : Oracle) (hn : 1 ≤ cfg.n) :
    BoundedSt (initState o) cfg.n := by
  refine ⟨?_, fun j _ => rfl⟩
  intro x hx
  simp only [initState, List.mem_singleton] at hx
  subst hx
  show (0 : ℕ) < cfg.n
  omega

theorem pot_initState (cfg : Config) (o : Oracle) : pot (initState o) cfg.n = 0 := by
  unfold pot initState pendA0 queueTotal
  simp [isA0, List.countP_cons]

/-- C5: in every run (any fuel, any in-range draws) the departure counter
never exceeds the arrival counter; and when the run has drained to
completion (empty event queue) with all feedback probabilities zero and
strictly positive uniform draws, the two counters are equal. -/
theorem departures_le_arrivals (cfg : Config) (o : Oracle) (fuel : ℕ)
    (hn : 1 ≤ cfg.n) (hch : ∀ k i, 1 ≤ i → o.choice k i < i) :
    (servers_simulation cfg o fuel).n_d ≤ (servers_simulation cfg o fuel).n_a ∧
    ((∀ i, cfg.p i = 0) → (∀ k, 0 < o.unif k) →
      (servers_simulation cfg o fuel).events = [] →
      (servers_simulation cfg o fuel).n_d = (servers_simulation cfg o fuel).n_a) := by
  have hloop := pot_runLoop cfg o fuel (initState o) hn hch (inv_initState o)
    (bounded_initState cfg o hn)
  have hpot0 : pot (initState o) cfg.n = 0 := pot_initState cfg o
  have hna0 : (initState o).n_a = 0 := rfl
  have hfinal : pot (servers_simulation cfg o fuel) cfg.n ≤
      (servers_simulation cfg o fuel).n_a := by
    unfold servers_simulation
    exact hloop.1 (by omega)
  have hnd_le_pot : (servers_simulation cfg o fuel).n_d ≤
      pot (servers_simulation cfg o fuel) cfg.n := by
    unfold pot
    omega
  refine ⟨by omega, ?_⟩
  intro hp hu hdrain
  have hnofb : ∀ k i, 1 ≤ i → cfg.p i < o.unif k := by
    intro k i _
    rw [hp i]
    exact hu k
  have heqf : pot (servers_simulation cfg o fuel) cfg.n =
      (servers_simulation cfg o fuel).n_a := by
    unfold servers_simulation
    exact hloop.2 hnofb (by omega)
  obtain ⟨hH, _⟩ := inv_servers_simulation cfg o fuel
  have hquend : ∀ j, (servers_simulation cfg o fuel).queue j = [] := by
    intro j
    cases hqj : (servers_simulation cfg o fuel).queue j with
    | nil => rfl
    | cons h tl =>
      obtain ⟨ev, hev, _⟩ := (hH j).2 h tl hqj
      rw [hdrain] at hev
      simp [pendAF] at hev
  have hqt0 : queueTotal (servers_simulation cfg o fuel).queue cfg.n = 0 := by
    unfold queueTotal
    refine Finset.sum_eq_zero ?_
    intro j _
    rw [hquend j]
    rfl
  have hpa0 : pendA0 (servers_simulation cfg o fuel).events = 0 := by
    rw [hdrain]
    rfl
  have : pot (servers_simulation cfg o fuel) cfg.n =
      (servers_simulation cfg o fuel).n_d := by
    unfold pot
    omega
  omega

/-- Witness for `departures_le_arrivals`: the drained feedback-free `cfgC`
run empties its schedule and its counters agree (both are 1). -/
theorem departures_le_arrivals_witness :
    (servers_simulation cfgC oracleC 10).n_d = (servers_simulation cfgC oracleC 10).n_a :=
  (departures_le_arrivals cfgC oracleC 10 (by decide) (fun _ i hi => hi)).2
    (fun _ => rfl) (fun _ => one_pos) (by with_unfolding_all rfl)

/-- C1 (counterexample): a fixed-horizon run (`finish = false`) that stops
with a scheduled event still pending.  In the `cfgA` run the dispatch loop
exits as soon as the dispatched clock (11/2) has passed the horizon 1, even
though an ARRIVAL event of an admitted client is still scheduled; extra
fuel changes nothing because the loop guard, not fuel, ended the run. -/
theorem horizon_mode_abandons_events :
    cfgA.finish = false ∧
    servers_simulation cfgA oracleA 20 = servers_simulation cfgA oracleA 10 ∧
    (servers_simulation cfgA oracleA 10).events ≠ [] :=
  ⟨rfl, by with_unfolding_all rfl, of_decide_eq_true (by with_unfolding_all rfl)⟩

/-- C1 (amended): in fixed-horizon mode the horizon gates the dispatch loop
itself: whenever the drain flag is false and the last dispatched event time
has reached the horizon, the loop stops immediately — whatever events are
still scheduled and however much fuel remains. -/
theorem horizon_halts_dispatch_loop (cfg : Config) (o : Oracle) (fuel : ℕ) (st : SimState)
    (hfin : cfg.finish = false) (ht : cfg.time ≤ st.t) :
    runLoop cfg o fuel st = st := by
  cases fuel with
  | zero => rfl
  | succ fuel =>
    unfold runLoop
    have hg : ((cfg.finish || decide (st.t < cfg.time)) && !st.events.isEmpty) = false := by
      rw [hfin]
      simp [not_lt.mpr ht]
    rw [hg]
    simp

/-- Witness for `horizon_halts_dispatch_loop`: the halted `cfgA` state (its
clock is 11/2, past the horizon 1) is a fixed point of the loop. -/
theorem horizon_halts_dispatch_loop_witness :
    runLoop cfgA oracleA 7 (servers_simulation cfgA oracleA 10) =
      servers_simulation cfgA oracleA 10 :=
  horizon_halts_dispatch_loop cfgA oracleA 7 (servers_simulation cfgA oracleA 10) rfl
    (of_decide_eq_true (by with_unfolding_all rfl))

/-- C2 (counterexample): in the `cfgB` run (n = 3), client 0 finishes
station 1 (an interior station) at time 5/2 and feedback routes it to
station 0; the enqueued ASIGNED event does carry identifier 0, but on
dispatch the station-0 handler re-indexes the client as `n_a`: the
queue-entry at 5/2 is recorded under the fresh identifier 1, client 0's own
station-0 record never grows, and the arrival counter reaches 2 although
only one external client ever arrived. -/
theorem feedback_to_zero_renames_client :
    (servers_simulation cfgB oracleB 20).d 1 0 = [5/2] ∧
    (servers_simulation cfgB oracleB 20).q 0 0 = [1/2] ∧
    (servers_simulation cfgB oracleB 20).q 0 1 = [5/2] ∧
    (servers_simulation cfgB oracleB 20).d 2 0 = [] ∧
    (servers_simulation cfgB oracleB 20).d 2 1 = [11/2] ∧
    (servers_simulation cfgB oracleB 20).n_a = 2 :=
  ⟨by with_unfolding_all rfl, by with_unfolding_all rfl, by with_unfolding_all rfl,
    by with_unfolding_all rfl, by with_unfolding_all rfl, by with_unfolding_all rfl⟩

/-- C2 (amended): the ASIGNED event a finishing interior station enqueues
carries the same client identifier, and a station `i > 0` records its
timestamps under that identifier; but station 0 always re-indexes the
arriving client as the current value of the arrival counter `n_a` (a fresh
identifier) and increments `n_a` — identifiers are preserved only away from
station 0. -/
theorem assigned_identifier_rule (cfg : Config) (o : Oracle) (st : SimState) (t : ℚ)
    (c i : ℕ) (hi : 0 < i) (hlast : ¬ (i : ℤ) = (cfg.n : ℤ) - 1) :
    (handleAsigned cfg o st t c i).q i c = st.q i c ++ [t] ∧
    (handleAsigned cfg o st t c 0).q 0 st.n_a = st.q 0 st.n_a ++ [t] ∧
    (handleAsigned cfg o st t c 0).n_a = st.n_a + 1 ∧
    ∃ s, ((handleFinish cfg o st t c i).events).getLast? =
      some ⟨t, .ASIGNED, c, s⟩ := by
  refine ⟨?_, ?_, ?_, ?_⟩
  · unfold handleAsigned
    rw [if_neg (by omega : ¬ i = 0)]
    simp only []
    rw [if_pos (by omega : i ≠ 0), Function.update_same, Function.update_same]
  · unfold handleAsigned
    rw [if_pos rfl]
    by_cases hgap : t + o.gap st.kGap < cfg.time
    · rw [if_pos hgap]
      simp only []
      rw [if_neg (by simp), Function.update_same, Function.update_same]
    · rw [if_neg hgap]
      simp only []
      rw [if_neg (by simp), Function.update_same, Function.update_same]
  · unfold handleAsigned
    rw [if_pos rfl]
  · unfold handleFinish
    rw [if_neg hlast, if_neg (by omega : ¬ i = 0)]
    by_cases hu : cfg.p i < o.unif st.kUnif
    · rw [if_pos hu]
      exact ⟨i + 1, by simp⟩
    · rw [if_neg hu]
      exact ⟨o.choice st.kChoice i, by simp⟩

/-- Witness for `assigned_identifier_rule`, instantiated in the `cfgB`
network at interior station 1 with client 5. -/
theorem assigned_identifier_rule_witness :
    (handleAsigned cfgB oracleB (initState oracleB) 0 5 1).q 1 5 =
      (initState oracleB).q 1 5 ++ [0] ∧
    (handleAsigned cfgB oracleB (initState oracleB) 0 5 0).q 0 (initState oracleB).n_a =
      (initState oracleB).q 0 (initState oracleB).n_a ++ [0] ∧
    (handleAsigned cfgB oracleB (initState oracleB) 0 5 0).n_a =
      (initState oracleB).n_a + 1 ∧
    ∃ s, ((handleFinish cfgB oracleB (initState oracleB) 0 5 1).events).getLast? =
      some ⟨0, .ASIGNED, 5, s⟩ :=
  assigned_identifier_rule cfgB oracleB (initState oracleB) 0 5 1 (by decide) (by decide)

/-- C4 (counterexample): two events share the key `(time, kind_rank)` =
`(1, ARRIVAL)`; the first-inserted one has client 5, the second client 2.
`pop_min` yields the client-2 event first — the tuple comparison continues
into the client field, so insertion order (FIFO) is not respected among
same-`(time, kind)` events. -/
theorem pq_tie_not_fifo :
    popMin [⟨1, .ARRIVAL, 5, 0⟩, ⟨1, .ARRIVAL, 2, 0⟩] =
      some (⟨1, .ARRIVAL, 2, 0⟩, [⟨1, .ARRIVAL, 5, 0⟩]) ∧
    (⟨1, .ARRIVAL, 2, 0⟩ : Event) ≠ ⟨1, .ARRIVAL, 5, 0⟩ :=
  ⟨by decide, by decide⟩

/-- C4 (amended): `pop_min` always returns an event of minimal full
comparison key `(time, kind_rank, client, station)`, and ties within the
same `(time, kind_rank)` are broken by the remaining tuple components —
client id, then station — not by insertion order; only events identical in
all four components are mutually indistinguishable. -/
theorem pq_tie_break_rule :
    (∀ (l : List Event) (ev : Event) (rest : List Event), popMin l = some (ev, rest) →
      ∀ x ∈ l, Event.key ev ≤ Event.key x) ∧
    (∀ (t : ℚ) (k : EventType) (c1 i1 c2 i2 : ℕ), c2 < c1 →
      popMin [⟨t, k, c1, i1⟩, ⟨t, k, c2, i2⟩] =
        some (⟨t, k, c2, i2⟩, [⟨t, k, c1, i1⟩])) := by
  refine ⟨fun l ev rest h => popMin_min h, ?_⟩
  intro t k c1 i1 c2 i2 hc
  have hlt : Event.key ⟨t, k, c2, i2⟩ < Event.key ⟨t, k, c1, i1⟩ := by
    unfold Event.key
    simp only []
    rw [Prod.Lex.lt_iff]
    right
    refine ⟨rfl, ?_⟩
    rw [Prod.Lex.lt_iff]
    right
    refine ⟨rfl, ?_⟩
    rw [Prod.Lex.lt_iff]
    left
    exact hc
  simp only [popMin]
  rw [if_neg (not_le.mpr hlt)]

/-- Witness for `pq_tie_break_rule`: the popped client-2 event has minimal
key in the counterexample queue, and two same-time FINISH events pop in
client order. -/
theorem pq_tie_break_rule_witness :
    Event.key ⟨1, .ARRIVAL, 2, 0⟩ ≤ Event.key ⟨1, .ARRIVAL, 5, 0⟩ ∧
    popMin [⟨2, .FINISH, 7, 1⟩, ⟨2, .FINISH, 3, 1⟩] =
      some (⟨2, .FINISH, 3, 1⟩, [⟨2, .FINISH, 7, 1⟩]) :=
  ⟨pq_tie_break_rule.1 [⟨1, .ARRIVAL, 5, 0⟩, ⟨1, .ARRIVAL, 2, 0⟩] ⟨1, .ARRIVAL, 2, 0⟩
      [⟨1, .ARRIVAL, 5, 0⟩] (by decide) ⟨1, .ARRIVAL, 5, 0⟩ (by decide),
    pq_tie_break_rule.2 2 .FINISH 7 1 3 1 (by decide)⟩

/-- A deliberately invalid configuration: zero stations. -/
def cfgInvalid : Config := { time := 1, n := 0, p := fun _ => 0, finish := true }

/-- C9 (counterexample): with the invalid station count n = 0 the call is
not rejected: the engine schedules the initial external-arrival event all
the same (and no `ConfigurationError` exists anywhere in the code). -/
theorem invalid_config_still_schedules :
    cfgInvalid.n < 1 ∧
    (servers_simulation cfgInvalid oracleC 0).events = [⟨1/2, .ASIGNED, 0, 0⟩] :=
  ⟨by decide, by with_unfolding_all rfl⟩

/-- C9 (amended): the engine performs no configuration validation at all:
for every configuration — valid or invalid — and every draw stream, the
call proceeds and the initial external arrival is scheduled before the
dispatch loop starts; errors surface only later, as runtime failures. -/
theorem no_config_validation (cfg : Config) (o : Oracle) :
    (servers_simulation cfg o 0).events = [⟨0 + o.gap 0, .ASIGNED, 0, 0⟩] ∧
    (servers_simulation cfg o 0).n_a = 0 ∧
    (servers_simulation cfg o 0).n_d = 0 :=
  ⟨rfl, rfl, rfl⟩

theorem run_simulation_loop_bounds (minIt maxIt : ℕ) (c : ℚ) (m : ℕ → ℚ) :
    ∀ fuel its acc, its < maxIt → maxIt ≤ its + fuel → minIt ≤ maxIt →
      minIt ≤ (run_simulation_loop minIt maxIt c m fuel its acc).1 ∧
      (run_simulation_loop minIt maxIt c m fuel its acc).1 ≤ maxIt := by
  intro fuel
  induction fuel with
  | zero =>
    intro its acc h1 h2 _
    omega
  | succ fuel ih =>
    intro its acc h1 h2 h3
    unfold run_simulation_loop
    by_cases hmax : maxIt ≤ its + 1
    · rw [if_pos hmax]
      constructor <;> omega
    · rw [if_neg hmax]
      by_cases hconv : (decide (minIt ≤ its + 1) && convergedB (acc ++ [m its]) c) = true
      · rw [if_pos hconv]
        simp only [Bool.and_eq_true, decide_eq_true_eq] at hconv
        constructor <;> omega
      · rw [if_neg hconv]
        exact ih (its + 1) (acc ++ [m its]) (by omega) (by omega) h3

theorem run_simulation_loop_min_stop (minIt maxIt : ℕ) (c : ℚ) (m : ℕ → ℚ)
    (hconv : convergedB ((List.range minIt).map m) c = true) :
    ∀ fuel its, its < minIt → maxIt ≤ its + fuel → minIt ≤ maxIt →
      (run_simulation_loop minIt maxIt c m fuel its ((List.range its).map m)).1 = minIt := by
  intro fuel
  induction fuel with
  | zero =>
    intro its h1 h2 h3
    omega
  | succ fuel ih =>
    intro its h1 h2 h3
    have hacc : (List.range its).map m ++ [m its] = (List.range (its + 1)).map m := by
      rw [List.range_succ]
      simp
    unfold run_simulation_loop
    by_cases hmax : maxIt ≤ its + 1
    · rw [if_pos hmax]
      omega
    · rw [if_neg hmax]
      by_cases heq : its + 1 = minIt
      · rw [if_pos ?_]
        · exact heq
        · rw [hacc, heq, hconv]
          simp
      · rw [if_neg ?_]
        · rw [hacc]
          exact ih (its + 1) (by omega) (by omega) h3
        · simp only [Bool.and_eq_true, decide_eq_true_eq]
          rintro ⟨hge, _⟩
          omega

/-- C7: the replication controller's stopping rule.  With a positive
minimum not exceeding the maximum, and enough fuel to reach the maximum:
the loop never stops before `min_iterations` (so the convergence test,
checked only from `min_iterations` on, can never end the run earlier), it
always stops by `max_iterations`, and when the accumulated system-time
means of the first `min_iterations` replications already satisfy
`std / len < threshold` it stops after exactly `min_iterations`
replications. -/
theorem run_simulation_stopping (minIt maxIt k : ℕ) (c : ℚ) (m : ℕ → ℚ)
    (hmin : 1 ≤ minIt) (hle : minIt ≤ maxIt) :
    minIt ≤ (run_simulation_loop minIt maxIt c m (maxIt + k) 0 []).1 ∧
    (run_simulation_loop minIt maxIt c m (maxIt + k) 0 []).1 ≤ maxIt ∧
    (convergedB ((List.range minIt).map m) c = true →
      (run_simulation_loop minIt maxIt c m (maxIt + k) 0 []).1 = minIt) := by
  have hb := run_simulation_loop_bounds minIt maxIt c m (maxIt + k) 0 []
    (by omega) (by omega) hle
  refine ⟨hb.1, hb.2, ?_⟩
  intro hconv
  have := run_simulation_loop_min_stop minIt maxIt c m hconv (maxIt + k) 0
    (by omega) (by omega) hle
  simpa using this

/-- Witness for `run_simulation_stopping`: with `min = 2`, `max = 5`, a
huge threshold and constant per-replication means, the controller runs
exactly 2 replications. -/
theorem run_simulation_stopping_witness :
    (run_simulation_loop 2 5 1000 (fun _ => 3) (5 + 0) 0 []).1 = 2 :=
  (run_simulation_stopping 2 5 0 1000 (fun _ => 3) (by omega) (by omega)).2.2
    (by with_unfolding_all rfl)

theorem getD_set_self {l : List ℚ} {i : ℕ} {x : ℚ} (h : i < l.length) :
    (l.set i x).getD i 0 = x := by
  simp [List.getElem?_set_self h]

theorem getD_set_ne {l : List ℚ} {i j : ℕ} {x : ℚ} (h : i ≠ j) :
    (l.set i x).getD j 0 = l.getD j 0 := by
  simp [List.getElem?_set_ne h]

/-- The exact contribution one station pass adds to `system_time[c]`: zero
unless the client's records at this station are complete, and then the
positional-guarded `-q[0][c][0]` and `+d[n-1][c][-1]` updates. -/
def sysContrib (n n_d : ℕ) (q a d : ℕ → ℕ → List ℚ) (s c : ℕ) : ℚ :=
  if (q s c).length = 0 then 0
  else if (a s c).length = 0 then 0
  else if (d s c).length = 0 then 0
  else (if s = 0 ∧ c < n_d then -(q s c).headI else 0) +
    (if s = n - 1 ∧ c < n_d then (d s c).getLastD 0 else 0)

theorem clientStep_sys_len {t : ℚ} {n n_d : ℕ} {q a d : ℕ → ℕ → List ℚ} {s : ℕ}
    {acc : List ℚ × List ℚ × List ℚ} {c : ℕ} :
    ((clientStep t n n_d q a d s acc c).2.2).length = acc.2.2.length := by
  unfold clientStep
  by_cases h1 : (q s c).length = 0
  · rw [if_pos h1]
  · rw [if_neg h1]
    by_cases h2 : (a s c).length = 0
    · rw [if_pos h2]
    · rw [if_neg h2]
      by_cases h3 : (d s c).length = 0
      · rw [if_pos h3]
      · rw [if_neg h3]
        simp only []
        split_ifs <;> simp

theorem clientStep_sys_ne {t : ℚ} {n n_d : ℕ} {q a d : ℕ → ℕ → List ℚ} {s : ℕ}
    {acc : List ℚ × List ℚ × List ℚ} {c c' : ℕ} (h : c ≠ c') :
    ((clientStep t n n_d q a d s acc c).2.2).getD c' 0 = acc.2.2.getD c' 0 := by
  unfold clientStep
  by_cases h1 : (q s c).length = 0
  · rw [if_pos h1]
  · rw [if_neg h1]
    by_cases h2 : (a s c).length = 0
    · rw [if_pos h2]
    · rw [if_neg h2]
      by_cases h3 : (d s c).length = 0
      · rw [if_pos h3]
      · rw [if_neg h3]
        simp only []
        by_cases h4 : s = 0 ∧ c < n_d <;> by_cases h5 : s = n - 1 ∧ c < n_d
        · simp only [if_pos h4, if_pos h5]
          rw [getD_set_ne h, getD_set_ne h]
        · simp only [if_pos h4, if_neg h5]
          rw [getD_set_ne h]
        · simp only [if_neg h4, if_pos h5]
          rw [getD_set_ne h]
        · simp only [if_neg h4, if_neg h5]

theorem clientStep_sys_self {t : ℚ} {n n_d : ℕ} {q a d : ℕ → ℕ → List ℚ} {s : ℕ}
    {acc : List ℚ × List ℚ × List ℚ} {c : ℕ} (hc : c < acc.2.2.length) :
    ((clientStep t n n_d q a d s acc c).2.2).getD c 0 =
      acc.2.2.getD c 0 + sysContrib n n_d q a d s c := by
  unfold clientStep sysContrib
  by_cases h1 : (q s c).length = 0
  · rw [if_pos h1, if_pos h1]
    simp
  · rw [if_neg h1, if_neg h1]
    by_cases h2 : (a s c).length = 0
    · rw [if_pos h2, if_pos h2]
      simp
    · rw [if_neg h2, if_neg h2]
      by_cases h3 : (d s c).length = 0
      · rw [if_pos h3, if_pos h3]
        simp
      · rw [if_neg h3, if_neg h3]
        simp only []
        by_cases h4 : s = 0 ∧ c < n_d <;> by_cases h5 : s = n - 1 ∧ c < n_d
        · simp only [if_pos h4, if_pos h5]
          rw [getD_set_self (by simpa using hc), getD_set_self hc]
          ring
        · simp only [if_pos h4, if_neg h5]
          rw [getD_set_self hc]
          ring
        · simp only [if_neg h4, if_pos h5]
          rw [getD_set_self hc]
          ring
        · simp only [if_neg h4, if_neg h5]
          ring

theorem clientStep_wpc_len {t : ℚ} {n n_d : ℕ} {q a d : ℕ → ℕ → List ℚ} {s : ℕ}
    {acc : List ℚ × List ℚ × List ℚ} {c : ℕ} :
    (clientStep t n n_d q a d s acc c).1.length =
      acc.1.length + (if (q s c).length = 0 then 0 else 1) := by
  unfold clientStep
  by_cases h1 : (q s c).length = 0
  · rw [if_pos h1, if_pos h1]
    simp
  · rw [if_neg h1, if_neg h1]
    by_cases h2 : (a s c).length = 0
    · rw [if_pos h2]
      simp
    · rw [if_neg h2]
      by_cases h3 : (d s c).length = 0
      · rw [if_pos h3]
        simp
      · rw [if_neg h3]
        simp

theorem clientStep_upc_len {t : ℚ} {n n_d : ℕ} {q a d : ℕ → ℕ → List ℚ} {s : ℕ}
    {acc : List ℚ × List ℚ × List ℚ} {c : ℕ} :
    (clientStep t n n_d q a d s acc c).2.1.length =
      acc.2.1.length +
        (if (q s c).length ≠ 0 ∧ (a s c).length ≠ 0 ∧ (d s c).length ≠ 0 then 1 else 0) := by
  unfold clientStep
  by_cases h1 : (q s c).length = 0
  · rw [if_pos h1]
    simp [h1]
  · rw [if_neg h1]
    by_cases h2 : (a s c).length = 0
    · rw [if_pos h2]
      simp [h2]
    · rw [if_neg h2]
      by_cases h3 : (d s c).length = 0
      · rw [if_pos h3]
        simp [h3]
      · rw [if_neg h3]
        simp [h1, h2, h3]

theorem stationFold_sys_len {t : ℚ} {n n_d : ℕ} {q a d : ℕ → ℕ → List ℚ} {s : ℕ} :
    ∀ (L : List ℕ) (acc : List ℚ × List ℚ × List ℚ),
      ((L.foldl (clientStep t n n_d q a d s) acc).2.2).length = acc.2.2.length := by
  intro L
  induction L with
  | nil => intro acc; rfl
  | cons c L ih =>
    intro acc
    rw [List.foldl_cons, ih]
    exact clientStep_sys_len

theorem stationFold_sys_not_mem {t : ℚ} {n n_d : ℕ} {q a d : ℕ → ℕ → List ℚ} {s : ℕ} :
    ∀ (L : List ℕ) (acc : List ℚ × List ℚ × List ℚ) (c' : ℕ), c' ∉ L →
      ((L.foldl (clientStep t n n_d q a d s) acc).2.2).getD c' 0 = acc.2.2.getD c' 0 := by
  intro L
  induction L with
  | nil => intro acc c' _; rfl
  | cons c L ih =>
    intro acc c' hmem
    rw [List.foldl_cons, ih _ _ (fun hx => hmem (List.mem_cons_of_mem _ hx))]
    exact clientStep_sys_ne (fun hx => hmem (by rw [hx]; exact List.mem_cons_self _ _))

theorem stationFold_sys_mem {t : ℚ} {n n_d : ℕ} {q a d : ℕ → ℕ → List ℚ} {s : ℕ} :
    ∀ (L : List ℕ) (acc : List ℚ × List ℚ × List ℚ) (c' : ℕ), L.Nodup → c' ∈ L →
      c' < acc.2.2.length →
      ((L.foldl (clientStep t n n_d q a d s) acc).2.2).getD c' 0 =
        acc.2.2.getD c' 0 + sysContrib n n_d q a d s c' := by
  intro L
  induction L with
  | nil => intro acc c' _ hmem; simp at hmem
  | cons c L ih =>
    intro acc c' hnd hmem hlt
    rw [List.foldl_cons]
    rcases List.mem_cons.mp hmem with rfl | hmem2
    · rw [stationFold_sys_not_mem L _ c' (by simpa using (List.nodup_cons.mp hnd).1)]
      exact clientStep_sys_self hlt
    · by_cases hcc : c = c'
      · subst hcc
        rw [stationFold_sys_not_mem L _ c (by simpa using (List.nodup_cons.mp hnd).1)]
        exact clientStep_sys_self hlt
      · rw [ih _ _ (List.nodup_cons.mp hnd).2 hmem2
          (by rw [clientStep_sys_len]; exact hlt)]
        rw [clientStep_sys_ne hcc]

theorem stationFold_wpc_len {t : ℚ} {n n_d : ℕ} {q a d : ℕ → ℕ → List ℚ} {s : ℕ} :
    ∀ (L : List ℕ) (acc : List ℚ × List ℚ × List ℚ),
      ((L.foldl (clientStep t n n_d q a d s) acc).1).length =
        acc.1.length + L.countP (fun c => decide ((q s c).length ≠ 0)) := by
  intro L
  induction L with
  | nil => intro acc; simp
  | cons c L ih =>
    intro acc
    rw [List.foldl_cons, ih, clientStep_wpc_len, List.countP_cons]
    by_cases hp : (q s c).length = 0 <;> simp [hp] <;> omega

theorem stationFold_upc_len {t : ℚ} {n n_d : ℕ} {q a d : ℕ → ℕ → List ℚ} {s : ℕ} :
    ∀ (L : List ℕ) (acc : List ℚ × List ℚ × List ℚ),
      ((L.foldl (clientStep t n n_d q a d s) acc).2.1).length =
        acc.2.1.length + L.countP (fun c =>
          decide ((q s c).length ≠ 0 ∧ (a s c).length ≠ 0 ∧ (d s c).length ≠ 0)) := by
  intro L
  induction L with
  | nil => intro acc; simp
  | cons c L ih =>
    intro acc
    rw [List.foldl_cons, ih, clientStep_upc_len, List.countP_cons]
    by_cases hp : (q s c).length ≠ 0 ∧ (a s c).length ≠ 0 ∧ (d s c).length ≠ 0 <;>
      simp [hp] <;> omega

theorem outerFold_sys_len (t : ℚ) (n n_a n_d : ℕ) (q a d : ℕ → ℕ → List ℚ) :
    ∀ (S : List ℕ) (acc : List ℚ × List ℚ × List ℚ),
      ((S.foldl (fun (acc : List ℚ × List ℚ × List ℚ) s =>
        let pass := stationPass t n n_a n_d q a d s acc.2.2
        (acc.1 ++ [npMean pass.1], acc.2.1 ++ [npMean pass.2.1], pass.2.2)) acc).2.2).length =
      acc.2.2.length := by
  intro S
  induction S with
  | nil => intro acc; rfl
  | cons s S ih =>
    intro acc
    rw [List.foldl_cons, ih]
    exact stationFold_sys_len (List.range n_a) ([], [], acc.2.2)

theorem outerFold_sys_getD (t : ℚ) (n n_a n_d : ℕ) (q a d : ℕ → ℕ → List ℚ) :
    ∀ (S : List ℕ) (acc : List ℚ × List ℚ × List ℚ) (c : ℕ), acc.2.2.length = n_a →
      ((S.foldl (fun (acc : List ℚ × List ℚ × List ℚ) s =>
        let pass := stationPass t n n_a n_d q a d s acc.2.2
        (acc.1 ++ [npMean pass.1], acc.2.1 ++ [npMean pass.2.1], pass.2.2)) acc).2.2).getD c 0 =
      acc.2.2.getD c 0 +
        ((S.map (fun s => if c < n_a then sysContrib n n_d q a d s c else 0)).sum) := by
  intro S
  induction S with
  | nil =>
    intro acc c _
    simp
  | cons s S ih =>
    intro acc c hlen
    rw [List.foldl_cons, List.map_cons, List.sum_cons]
    have hlen2 : ((stationPass t n n_a n_d q a d s acc.2.2).2.2).length = n_a := by
      rw [show (stationPass t n n_a n_d q a d s acc.2.2).2.2 =
        ((List.range n_a).foldl (clientStep t n n_d q a d s) ([], [], acc.2.2)).2.2 from rfl]
      rw [stationFold_sys_len]
      exact hlen
    simp only []
    rw [ih _ c (by exact hlen2)]
    have hpass : ((stationPass t n n_a n_d q a d s acc.2.2).2.2).getD c 0 =
        acc.2.2.getD c 0 + (if c < n_a then sysContrib n n_d q a d s c else 0) := by
      by_cases hc : c < n_a
      · rw [if_pos hc]
        exact stationFold_sys_mem (List.range n_a) ([], [], acc.2.2) c
          (List.nodup_range n_a) (List.mem_range.mpr hc) (by simpa using hc.trans_eq hlen.symm)
      · rw [if_neg hc, add_zero]
        exact stationFold_sys_not_mem (List.range n_a) ([], [], acc.2.2) c
          (by simpa using hc)
    rw [show ((acc.1 ++ [npMean (stationPass t n n_a n_d q a d s acc.2.2).1],
        acc.2.1 ++ [npMean (stationPass t n n_a n_d q a d s acc.2.2).2.1],
        (stationPass t n n_a n_d q a d s acc.2.2).2.2) :
        List ℚ × List ℚ × List ℚ).2.2 =
      (stationPass t n n_a n_d q a d s acc.2.2).2.2 from rfl]
    rw [hpass]
    ring

theorem list_sum_map_add (l : List ℕ) (f g : ℕ → ℚ) :
    (l.map (fun s => f s + g s)).sum = (l.map f).sum + (l.map g).sum := by
  induction l with
  | nil => simp
  | cons x l ih =>
    simp only [List.map_cons, List.sum_cons, ih]
    ring

theorem list_range_sum_spike (n j : ℕ) (f : ℕ → ℚ) (hj : j < n)
    (hz : ∀ s, s ≠ j → f s = 0) : ((List.range n).map f).sum = f j := by
  induction n with
  | zero => omega
  | succ n ih =>
    rw [List.range_succ, List.map_append, List.sum_append]
    by_cases hjn : j = n
    · subst hjn
      have : ((List.range j).map f).sum = 0 := by
        apply List.sum_eq_zero
        intro x hx
        obtain ⟨s, hs, rfl⟩ := List.mem_map.mp hx
        exact hz s (by have := List.mem_range.mp hs; omega)
      rw [this]
      simp
    · rw [ih (by omega)]
      simp [hz n (by omega)]

theorem getD_replicate_zero (n c : ℕ) : (List.replicate n (0 : ℚ)).getD c 0 = 0 := by
  simp only [List.getD_eq_getElem?_getD, List.getElem?_replicate]
  split <;> rfl

theorem sysContrib_zero_of_ge {n n_d : ℕ} {q a d : ℕ → ℕ → List ℚ} {s c : ℕ}
    (h : n_d ≤ c) : sysContrib n n_d q a d s c = 0 := by
  unfold sysContrib
  rw [if_neg (by omega : ¬(s = 0 ∧ c < n_d)), if_neg (by omega : ¬(s = n - 1 ∧ c < n_d))]
  split_ifs <;> norm_num

/-- The reducer's final `system_time[c]` is the sum over the stations of the
per-station contribution `sysContrib`. -/
theorem metrics_system_time_getD (cfg : Config) (o : Oracle) (fuel : ℕ) (c : ℕ) :
    (metrics_by_simulation cfg o fuel).system_time.getD c 0 =
      ((List.range cfg.n).map (fun s =>
        if c < (servers_simulation cfg o fuel).n_a then
          sysContrib cfg.n (servers_simulation cfg o fuel).n_d
            (servers_simulation cfg o fuel).q (servers_simulation cfg o fuel).a
            (servers_simulation cfg o fuel).d s c
        else 0)).sum := by
  unfold metrics_by_simulation
  simp only []
  rw [outerFold_sys_getD (servers_simulation cfg o fuel).t cfg.n
    (servers_simulation cfg o fuel).n_a (servers_simulation cfg o fuel).n_d
    (servers_simulation cfg o fuel).q (servers_simulation cfg o fuel).a
    (servers_simulation cfg o fuel).d (List.range cfg.n)
    ([], [], List.replicate (servers_simulation cfg o fuel).n_a 0) c (by simp)]
  rw [show (([], [], List.replicate (servers_simulation cfg o fuel).n_a 0) :
      List ℚ × List ℚ × List ℚ).2.2 =
    List.replicate (servers_simulation cfg o fuel).n_a (0 : ℚ) from rfl]
  rw [getD_replicate_zero]
  ring

/-- C3 (amended): the reducer selects clients for the system-time array by
positional index against the departure counter, not by identity.  Entry `c`
stays 0 whenever `n_d ≤ c` — even for a client that did enter station 0 and
depart station n-1 — and for `c < n_d` with complete records at stations 0
and n-1 (in a network with at least two stations) it equals
`d[n-1][c][-1] - q[0][c][0]`; a client below the counter with incomplete
records keeps a partial, possibly negative, value. -/
theorem system_time_positional (cfg : Config) (o : Oracle) (fuel : ℕ) (c : ℕ) :
    ((servers_simulation cfg o fuel).n_d ≤ c →
      (metrics_by_simulation cfg o fuel).system_time.getD c 0 = 0) ∧
    (c < (servers_simulation cfg o fuel).n_d → c < (servers_simulation cfg o fuel).n_a →
      2 ≤ cfg.n →
      (servers_simulation cfg o fuel).q 0 c ≠ [] →
      (servers_simulation cfg o fuel).a 0 c ≠ [] →
      (servers_simulation cfg o fuel).d 0 c ≠ [] →
      (servers_simulation cfg o fuel).q (cfg.n - 1) c ≠ [] →
      (servers_simulation cfg o fuel).a (cfg.n - 1) c ≠ [] →
      (servers_simulation cfg o fuel).d (cfg.n - 1) c ≠ [] →
      (metrics_by_simulation cfg o fuel).system_time.getD c 0 =
        ((servers_simulation cfg o fuel).d (cfg.n - 1) c).getLastD 0 -
          ((servers_simulation cfg o fuel).q 0 c).headI) := by
  constructor
  · intro hge
    rw [metrics_system_time_getD]
    apply List.sum_eq_zero
    intro x hx
    obtain ⟨s, _, rfl⟩ := List.mem_map.mp hx
    split
    · exact sysContrib_zero_of_ge hge
    · rfl
  · intro hlt hna hn2 hq0 ha0 hd0 hq1 ha1 hd1
    rw [metrics_system_time_getD]
    have hmapeq : (List.range cfg.n).map (fun s =>
        if c < (servers_simulation cfg o fuel).n_a then
          sysContrib cfg.n (servers_simulation cfg o fuel).n_d
            (servers_simulation cfg o fuel).q (servers_simulation cfg o fuel).a
            (servers_simulation cfg o fuel).d s c
        else 0) =
        (List.range cfg.n).map (fun s =>
          (if s = 0 then -((servers_simulation cfg o fuel).q 0 c).headI else 0) +
          (if s = cfg.n - 1 then ((servers_simulation cfg o fuel).d (cfg.n - 1) c).getLastD 0
            else 0)) := by
      apply List.map_congr_left
      intro s _
      rw [if_pos hna]
      by_cases hs0 : s = 0
      · subst hs0
        unfold sysContrib
        rw [if_neg (by simpa [List.length_eq_zero] using hq0),
          if_neg (by simpa [List.length_eq_zero] using ha0),
          if_neg (by simpa [List.length_eq_zero] using hd0),
          if_pos (⟨rfl, hlt⟩ : (0 : ℕ) = 0 ∧ c < (servers_simulation cfg o fuel).n_d),
          if_neg (by omega : ¬((0 : ℕ) = cfg.n - 1 ∧ c < (servers_simulation cfg o fuel).n_d)),
          if_pos rfl, if_neg (by omega : ¬(0 : ℕ) = cfg.n - 1)]
      · by_cases hsn : s = cfg.n - 1
        · subst hsn
          unfold sysContrib
          rw [if_neg (by simpa [List.length_eq_zero] using hq1),
            if_neg (by simpa [List.length_eq_zero] using ha1),
            if_neg (by simpa [List.length_eq_zero] using hd1),
            if_neg (by omega : ¬(cfg.n - 1 = 0 ∧ c < (servers_simulation cfg o fuel).n_d)),
            if_pos (⟨rfl, hlt⟩ :
              cfg.n - 1 = cfg.n - 1 ∧ c < (servers_simulation cfg o fuel).n_d),
            if_neg (by omega : ¬(cfg.n - 1 = 0)), if_pos rfl]
        · unfold sysContrib
          rw [if_neg (by omega : ¬(s = 0 ∧ c < (servers_simulation cfg o fuel).n_d)),
            if_neg (by omega : ¬(s = cfg.n - 1 ∧ c < (servers_simulation cfg o fuel).n_d)),
            if_neg hs0, if_neg hsn]
          split_ifs <;> norm_num
    rw [hmapeq, list_sum_map_add,
      list_range_sum_spike cfg.n 0 _ (by omega) (fun s hs => if_neg hs),
      list_range_sum_spike cfg.n (cfg.n - 1) _ (by omega) (fun s hs => if_neg hs),
      if_pos rfl, if_pos rfl]
    ring

/-- Concrete drained feedback-free run with two stations and one client. -/
def cfgD : Config := { time := 1, n := 2, p := fun _ => 0, finish := true }

/-- Draw results for the `cfgD` run. -/
def oracleD : Oracle :=
  { gap := fun k => if k = 0 then 1/2 else 10,
    svc := fun _ => 1,
    unif := fun _ => 1,
    choice := fun _ _ => 0 }

/-- C3 (counterexample): in the `cfgB` run, client 1 both entered station 0
(at 5/2) and departed the last station (at 11/2), so the claimed rule gives
it system time 3; the reducer instead leaves `system_time[1] = 0` because
its positional test `c < n_d` fails (`n_d = 1`), while client 0 — which
never departed the last station — receives the nonsensical partial value
`-1/2`. -/
theorem system_time_not_by_identity :
    (servers_simulation cfgB oracleB 20).q 0 1 ≠ [] ∧
    (servers_simulation cfgB oracleB 20).d 2 1 ≠ [] ∧
    ((servers_simulation cfgB oracleB 20).d 2 1).getLastD 0 -
      ((servers_simulation cfgB oracleB 20).q 0 1).headI = 3 ∧
    (metrics_by_simulation cfgB oracleB 20).system_time.getD 1 0 = 0 ∧
    (servers_simulation cfgB oracleB 20).d 2 0 = [] ∧
    (metrics_by_simulation cfgB oracleB 20).system_time.getD 0 0 = -(1/2) ∧
    (0 : ℚ) ≠ 3 :=
  ⟨of_decide_eq_true (by with_unfolding_all rfl), of_decide_eq_true (by with_unfolding_all rfl),
    by with_unfolding_all rfl, by with_unfolding_all rfl, by with_unfolding_all rfl,
    by with_unfolding_all rfl, by norm_num⟩

/-- Witness for `system_time_positional`: in the `cfgB` run the departed
client 1 sits at positional index 1 ≥ n_d and keeps value 0; in the
two-station `cfgD` run the fully departed client 0 (index 0 < n_d) gets
`d[1][0][-1] - q[0][0][0]`. -/
theorem system_time_positional_witness :
    (metrics_by_simulation cfgB oracleB 20).system_time.getD 1 0 = 0 ∧
    (metrics_by_simulation cfgD oracleD 10).system_time.getD 0 0 =
      ((servers_simulation cfgD oracleD 10).d (cfgD.n - 1) 0).getLastD 0 -
        ((servers_simulation cfgD oracleD 10).q 0 0).headI :=
  ⟨(system_time_positional cfgB oracleB 20 1).1
      (of_decide_eq_true (by with_unfolding_all rfl)),
    (system_time_positional cfgD oracleD 10 0).2
      (of_decide_eq_true (by with_unfolding_all rfl))
      (of_decide_eq_true (by with_unfolding_all rfl))
      (by decide)
      (of_decide_eq_true (by with_unfolding_all rfl))
      (of_decide_eq_true (by with_unfolding_all rfl))
      (of_decide_eq_true (by with_unfolding_all rfl))
      (of_decide_eq_true (by with_unfolding_all rfl))
      (of_decide_eq_true (by with_unfolding_all rfl))
      (of_decide_eq_true (by with_unfolding_all rfl))⟩

/-- C8 (amended): the per-station wait list has exactly one entry per
client with a queue-entry record (clients with no observation at that
station are excluded), and the use list one entry per client with complete
records; but the per-run system-time array always has length `n_a`, so its
`np.mean` — the value the replication controller accumulates — divides by
the full client count, counting every client that never completed the
network as a zero. -/
theorem observation_exclusion_rule (cfg : Config) (o : Oracle) (fuel : ℕ) :
    (metrics_by_simulation cfg o fuel).system_time.length =
      (servers_simulation cfg o fuel).n_a ∧
    npMean (metrics_by_simulation cfg o fuel).system_time =
      (metrics_by_simulation cfg o fuel).system_time.sum /
        (servers_simulation cfg o fuel).n_a ∧
    ∀ (t : ℚ) (n n_a n_d : ℕ) (q a d : ℕ → ℕ → List ℚ) (s : ℕ) (sys : List ℚ),
      (stationPass t n n_a n_d q a d s sys).1.length =
        (List.range n_a).countP (fun c => decide ((q s c).length ≠ 0)) ∧
      (stationPass t n n_a n_d q a d s sys).2.1.length =
        (List.range n_a).countP (fun c =>
          decide ((q s c).length ≠ 0 ∧ (a s c).length ≠ 0 ∧ (d s c).length ≠ 0)) := by
  have hlen : (metrics_by_simulation cfg o fuel).system_time.length =
      (servers_simulation cfg o fuel).n_a := by
    unfold metrics_by_simulation
    simp only []
    rw [outerFold_sys_len]
    rw [show (([], [], List.replicate (servers_simulation cfg o fuel).n_a 0) :
        List ℚ × List ℚ × List ℚ).2.2 =
      List.replicate (servers_simulation cfg o fuel).n_a (0 : ℚ) from rfl]
    exact List.length_replicate _ _
  refine ⟨hlen, ?_, ?_⟩
  · unfold npMean
    rw [hlen]
  · intro t n n_a n_d q a d s sys
    constructor
    · rw [show (stationPass t n n_a n_d q a d s sys).1 =
        ((List.range n_a).foldl (clientStep t n n_d q a d s) ([], [], sys)).1 from rfl]
      rw [stationFold_wpc_len]
      simp
    · rw [show (stationPass t n n_a n_d q a d s sys).2.1 =
        ((List.range n_a).foldl (clientStep t n n_d q a d s) ([], [], sys)).2.1 from rfl]
      rw [stationFold_upc_len]
      simp

/-- C8 (counterexample): in the `cfgA` run client 1 never reached service
(no departure observation anywhere), yet the per-run system-time array is
`[5, 0]` and its mean — the value the replication controller accumulates —
is 5/2: the absent observation was counted as a zero instead of excluding
the client (which would give 5). -/
theorem absent_counted_as_zero :
    (servers_simulation cfgA oracleA 10).n_a = 2 ∧
    (servers_simulation cfgA oracleA 10).d 0 1 = [] ∧
    (metrics_by_simulation cfgA oracleA 10).system_time = [5, 0] ∧
    npMean (metrics_by_simulation cfgA oracleA 10).system_time = 5/2 ∧
    (5/2 : ℚ) ≠ 5 :=
  ⟨by with_unfolding_all rfl, by with_unfolding_all rfl, by with_unfolding_all rfl,
    by with_unfolding_all rfl, by norm_num⟩
